import Mathlib

/-!
# Verification of the pull-request file-summary reconciler

Shallow embedding of `src/file-summary.ts` (functions
`preprocessCommitMessage`, `getOpenAISummaryForFile`, `getFileSummaries`)
together with the helpers it uses from `utils.ts`.

Modelling conventions:
* JavaScript strings are lists of characters (`Str`); `String.length`,
  `slice`, `split`, `includes`, `startsWith` become the corresponding
  list operations.
* The two remote services (source-control API and completion API) are
  explicit oracles passed in as functions; the run returns, besides the
  filename-to-summary mapping, the full log of side effects (deleted
  comment ids, created review comments, completion-service calls).
* JavaScript numbers (used only for the parsed diff `position`) are the
  type `JsNum`: NaN, the two infinities, or a finite rational.
-/

/-- JavaScript strings are modelled as lists of characters. -/
abbrev Str := List Char

/-- Character-list of a Lean string literal. -/
def str (s : String) : Str := s.data

/-- JS `String.startsWith`: `pat` is a prefix of the second argument. -/
def isPrefixL : Str → Str → Bool
  | [], _ => true
  | _ :: _, [] => false
  | a :: as, b :: bs => if a = b then isPrefixL as bs else false

/-- JS `String.includes`: `pat` occurs as a contiguous substring. -/
def containsSub (pat : Str) : Str → Bool
  | [] => pat.isEmpty
  | b :: bs => isPrefixL pat (b :: bs) || containsSub pat bs

/-- JS `String.split` with a one-character separator. -/
def splitChar (sep : Char) : Str → List Str
  | [] => [[]]
  | c :: rest =>
    match splitChar sep rest with
    | [] => [[]]
    | h :: t => if c = sep then [] :: h :: t else (c :: h) :: t

/-- JS `Array.join` with a one-character separator. -/
def joinSep (sep : Char) : List Str → Str
  | [] => []
  | [x] => x
  | x :: y :: xs => x ++ sep :: joinSep sep (y :: xs)

/-- `message.split("\n").slice(1).join("\n")` from the reuse branch of
`getFileSummaries`: the comment body with its first line removed. -/
def stripFirstLine (s : Str) : Str := joinSep '\n' ((splitChar '\n' s).drop 1)

/-- Insertion into a JS object used as a record: an existing key keeps its
position and gets the new value, a new key is appended (JS string-key
insertion order). -/
def recordInsert {α : Type} (k : Str) (v : α) : List (Str × α) → List (Str × α)
  | [] => [(k, v)]
  | (k', v') :: rest =>
    if k' = k then (k, v) :: rest else (k', v') :: recordInsert k v rest

/-- Key lookup in a JS object used as a record. -/
def recordGet {α : Type} (k : Str) : List (Str × α) → Option α
  | [] => none
  | (k', v) :: rest => if k' = k then some v else recordGet k rest

/-- `Object.values` (and, taking `.filename`, `Object.keys`). -/
def recordValues {α : Type} (l : List (Str × α)) : List α := l.map Prod.snd

/-- JavaScript numbers, as far as the program observes them:
`Number.isFinite` and comparison with `0`. -/
inductive JsNum where
  | nan
  | inf
  | ninf
  | fin (q : ℚ)
deriving DecidableEq, Repr

/-- `Number.isFinite`. -/
def JsNum.isFinite : JsNum → Bool
  | .fin _ => true
  | _ => false

/-- The JS comparison `x > 0` (false on NaN). -/
def JsNum.gtZero : JsNum → Bool
  | .fin q => decide (0 < q)
  | .inf => true
  | _ => false

/-! ## The link-stripping regex of `preprocessCommitMessage`

The source regex is
`/\[(?:[a-f0-9]{6}|None)]\(https:\/\/github\.com\/.*?#([a-f0-9]{40}|None)\)/`.
It is modelled by a deterministic matcher with exactly the JS backtracking
order: leftmost starting position; at a position, the six-hex alternative
before the `None` alternative; the lazy `.*?` extended one character at a
time, `.` excluding the four ECMAScript line terminators
(`'\n'`, `'\r'`, U+2028 LINE SEPARATOR, U+2029 PARAGRAPH SEPARATOR). -/

/-- The character class `[a-f0-9]`. -/
def isHex (c : Char) : Bool := decide (('a' ≤ c ∧ c ≤ 'f') ∨ ('0' ≤ c ∧ c ≤ '9'))

/-- The literal part `](https://github.com/` of the regex. -/
def litURL : Str := str "](https://github.com/"

/-- The literal `None`. -/
def noneStr : Str := str "None"

/-- The capturing group `([a-f0-9]{40}|None)` followed by the literal `\)`:
on success, the captured identifier.  The 40-hex alternative is tried
before the `None` alternative, as in the source regex. -/
def tryCapture (s : Str) : Option Str :=
  if (s.take 40).length = 40 ∧ (s.take 40).all isHex = true ∧ s[40]? = some ')' then
    some (s.take 40)
  else if s.take 5 = str "None)" then
    some noneStr
  else
    none

/-- The suffix `.*?#([a-f0-9]{40}|None)\)` of the regex: a lazy scan that
stops at the first `#` followed by a successful capture; `.` does not
cross a line terminator.  Returns the consumed characters and the capture. -/
def scanHash : Str → Option (Str × Str)
  | [] => none
  | c :: rest =>
    if c = '#' then
      match tryCapture rest with
      | some cap => some ('#' :: (cap ++ [')']), cap)
      | none =>
        match scanHash rest with
        | some (m, cap) => some (c :: m, cap)
        | none => none
    else if c = '\n' ∨ c = '\r' ∨ c = '\u2028' ∨ c = '\u2029' then
      none
    else
      match scanHash rest with
      | some (m, cap) => some (c :: m, cap)
      | none => none

/-- The prefix `\[(?:[a-f0-9]{6}|None)]\(https:\/\/github\.com\/` of the
regex.  Returns the consumed characters and the rest of the input.  The
two alternatives are disjoint (a six-hex run cannot start with `N`), so
the if-chain realises the JS alternation order faithfully. -/
def matchHead (s : Str) : Option (Str × Str) :=
  match s with
  | [] => none
  | c :: rest =>
    if c = '[' then
      if (rest.take 6).length = 6 ∧ (rest.take 6).all isHex = true ∧
          (rest.drop 6).take litURL.length = litURL then
        some ('[' :: (rest.take 6 ++ litURL), (rest.drop 6).drop litURL.length)
      else if rest.take 4 = noneStr ∧ (rest.drop 4).take litURL.length = litURL then
        some ('[' :: (noneStr ++ litURL), (rest.drop 4).drop litURL.length)
      else
        none
    else
      none

/-- A regex match anchored at the start of `s`: whole match and capture. -/
def matchAt (s : Str) : Option (Str × Str) :=
  match matchHead s with
  | none => none
  | some (hd, rest) =>
    match scanHash rest with
    | none => none
    | some (m, cap) => some (hd ++ m, cap)

/-- `commitMessage.match(linkRegex)`: the leftmost match (match[0]) and its
capturing group (match[1]). -/
def findMatch : Str → Option (Str × Str)
  | [] => none
  | c :: rest =>
    match matchAt (c :: rest) with
    | some r => some r
    | none => findMatch rest

/-- Worker for `replaceAll`, structurally recursive on a fuel that bounds
the input length (each step consumes at least one character, so
`s.length` fuel always suffices; see `replaceAllAux_fuel`). -/
def replaceAllAux (pat repl : Str) : Nat → Str → Str
  | _, [] => []
  | 0, s => s
  | Nat.succ fuel, c :: rest =>
    if pat ≠ [] ∧ isPrefixL pat (c :: rest) = true then
      repl ++ replaceAllAux pat repl fuel (rest.drop (pat.length - 1))
    else
      c :: replaceAllAux pat repl fuel rest

/-- `s.split(pat).join(repl)`: replace every (left-to-right,
non-overlapping) occurrence of `pat` in `s` by `repl`. -/
def replaceAll (pat repl s : Str) : Str := replaceAllAux pat repl s.length s

theorem replaceAllAux_fuel (pat repl : Str) :
    ∀ fuel₁ fuel₂ s, s.length ≤ fuel₁ → s.length ≤ fuel₂ →
      replaceAllAux pat repl fuel₁ s = replaceAllAux pat repl fuel₂ s := by
  intro fuel₁
  induction fuel₁ with
  | zero =>
    intro fuel₂ s h₁ _
    have hs : s = [] := List.eq_nil_of_length_eq_zero (Nat.le_zero.mp h₁)
    subst hs
    cases fuel₂ <;> rfl
  | succ f₁ ih =>
    intro fuel₂ s h₁ h₂
    cases s with
    | nil => cases fuel₂ <;> rfl
    | cons c rest =>
      cases fuel₂ with
      | zero => simp at h₂
      | succ f₂ =>
        simp only [replaceAllAux]
        by_cases hc : pat ≠ [] ∧ isPrefixL pat (c :: rest) = true
        · simp only [if_pos hc]
          have hlen : (rest.drop (pat.length - 1)).length ≤ f₁ := by
            simp only [List.length_drop]
            simp only [List.length_cons] at h₁
            omega
          have hlen₂ : (rest.drop (pat.length - 1)).length ≤ f₂ := by
            simp only [List.length_drop]
            simp only [List.length_cons] at h₂
            omega
          rw [ih _ _ hlen hlen₂]
        · simp only [if_neg hc]
          have hlen : rest.length ≤ f₁ := by
            simp only [List.length_cons] at h₁; omega
          have hlen₂ : rest.length ≤ f₂ := by
            simp only [List.length_cons] at h₂; omega
          rw [ih _ _ hlen hlen₂]

theorem replaceAll_nil (pat repl : Str) : replaceAll pat repl [] = [] := rfl

theorem replaceAll_pos (pat repl : Str) (c : Char) (rest : Str)
    (hne : pat ≠ []) (hp : isPrefixL pat (c :: rest) = true) :
    replaceAll pat repl (c :: rest) =
      repl ++ replaceAll pat repl (rest.drop (pat.length - 1)) := by
  unfold replaceAll
  simp only [List.length_cons, replaceAllAux, if_pos (And.intro hne hp)]
  congr 1
  exact replaceAllAux_fuel pat repl _ _ _ (by simp [List.length_drop]) (le_refl _)

theorem replaceAll_neg (pat repl : Str) (c : Char) (rest : Str)
    (h : ¬(pat ≠ [] ∧ isPrefixL pat (c :: rest) = true)) :
    replaceAll pat repl (c :: rest) = c :: replaceAll pat repl rest := by
  unfold replaceAll
  simp only [List.length_cons, replaceAllAux, if_neg h]

/-! ### Facts about the matcher used to justify the loop bound -/

/-- Abbreviation for the library fact that a `take` is a prefix. -/
theorem takePref (n : Nat) (s : Str) : s.take n <+: s := List.take_prefix n s

/-- Abbreviation for the library fact that `[]` is a prefix. -/
theorem nilPref (s : Str) : [] <+: s := List.nil_prefix


theorem isPrefixL_iff (p : Str) : ∀ s, isPrefixL p s = true ↔ p <+: s := by
  induction p with
  | nil =>
    intro s
    simp [isPrefixL, nilPref]
  | cons a as ih =>
    intro s
    cases s with
    | nil =>
      simp [isPrefixL]
    | cons b bs =>
      simp only [isPrefixL, List.cons_prefix_cons]
      by_cases hab : a = b
      · simp [hab, ih]
      · simp [hab]

theorem containsSub_iff (p : Str) : ∀ s, containsSub p s = true ↔ p <:+: s := by
  intro s
  induction s with
  | nil =>
    simp only [containsSub, List.isEmpty_iff]
    constructor
    · intro h; simp [h]
    · intro h; exact List.eq_nil_of_infix_nil h
  | cons b bs ih =>
    simp only [containsSub, Bool.or_eq_true, isPrefixL_iff, ih, List.infix_cons_iff]

theorem tryCapture_pref (s cap : Str) (h : tryCapture s = some cap) :
    (cap ++ [')']) <+: s := by
  unfold tryCapture at h
  split at h
  · rename_i hc
    obtain ⟨hlen, _, hget⟩ := hc
    have hcap : cap = s.take 40 := by injection h with h'; exact h'.symm
    subst hcap
    have : s.take 41 = s.take 40 ++ [')'] := by
      rw [List.take_succ, hget]
      rfl
    rw [← this]
    exact takePref 41 s
  · split at h
    · rename_i hc'
      have hcap : cap = noneStr := by injection h with h'; exact h'.symm
      have hNone : noneStr ++ [')'] = str "None)" := by rfl
      rw [hcap, hNone, ← hc']
      exact takePref 5 s
    · exact absurd h (by simp)

theorem scanHash_spec :
    ∀ s m cap, scanHash s = some (m, cap) → m <+: s ∧ cap.length + 2 ≤ m.length := by
  intro s
  induction s with
  | nil => intro m cap h; simp [scanHash] at h
  | cons c rest ih =>
    intro m cap h
    simp only [scanHash] at h
    by_cases hc : c = '#'
    · rw [if_pos hc] at h
      cases htc : tryCapture rest with
      | some cap' =>
        rw [htc] at h
        simp only [Option.some.injEq, Prod.mk.injEq] at h
        obtain ⟨hm, hcap⟩ := h
        subst hm; subst hcap
        refine ⟨?_, ?_⟩
        · exact List.cons_prefix_cons.mpr ⟨hc.symm, tryCapture_pref rest _ htc⟩
        · simp
      | none =>
        rw [htc] at h
        cases hsr : scanHash rest with
        | none => rw [hsr] at h; exact absurd h (by simp)
        | some p =>
          obtain ⟨m', cap'⟩ := p
          rw [hsr] at h
          simp only [Option.some.injEq, Prod.mk.injEq] at h
          obtain ⟨hm, hcap⟩ := h
          rw [← hm, ← hcap]
          obtain ⟨hpre, hlen⟩ := ih m' cap' hsr
          exact ⟨List.cons_prefix_cons.mpr ⟨rfl, hpre⟩, by simp; omega⟩
    · rw [if_neg hc] at h
      by_cases hnl : c = '\n' ∨ c = '\r' ∨ c = '\u2028' ∨ c = '\u2029'
      · rw [if_pos hnl] at h; exact absurd h (by simp)
      · rw [if_neg hnl] at h
        cases hsr : scanHash rest with
        | none => rw [hsr] at h; exact absurd h (by simp)
        | some p =>
          obtain ⟨m', cap'⟩ := p
          rw [hsr] at h
          simp only [Option.some.injEq, Prod.mk.injEq] at h
          obtain ⟨hm, hcap⟩ := h
          rw [← hm, ← hcap]
          obtain ⟨hpre, hlen⟩ := ih m' cap' hsr
          exact ⟨List.cons_prefix_cons.mpr ⟨rfl, hpre⟩, by simp; omega⟩

theorem matchHead_spec (s hd rest : Str) (h : matchHead s = some (hd, rest)) :
    s = hd ++ rest ∧ hd ≠ [] := by
  cases s with
  | nil => simp [matchHead] at h
  | cons c r =>
    simp only [matchHead] at h
    by_cases hc : c = '['
    · rw [if_pos hc] at h
      split at h
      · simp only [Option.some.injEq, Prod.mk.injEq] at h
        obtain ⟨hhd, hrest⟩ := h
        subst hhd; subst hrest
        rename_i hcond
        obtain ⟨_, _, hlit⟩ := hcond
        refine ⟨?_, by simp⟩
        have h2 : (r.drop 6).take litURL.length ++ (r.drop 6).drop litURL.length =
            r.drop 6 := List.take_append_drop _ _
        rw [hlit] at h2
        subst hc
        simp only [List.cons_append, List.cons.injEq, true_and, List.append_assoc]
        rw [h2]
        exact (List.take_append_drop 6 r).symm
      · split at h
        · simp only [Option.some.injEq, Prod.mk.injEq] at h
          obtain ⟨hhd, hrest⟩ := h
          subst hhd; subst hrest
          rename_i hcond
          obtain ⟨htk, hlit⟩ := hcond
          refine ⟨?_, by simp⟩
          have h2 : (r.drop 4).take litURL.length ++ (r.drop 4).drop litURL.length =
              r.drop 4 := List.take_append_drop _ _
          rw [hlit] at h2
          subst hc
          simp only [List.cons_append, List.cons.injEq, true_and, List.append_assoc]
          rw [h2, ← htk]
          exact (List.take_append_drop 4 r).symm
        · exact absurd h (by simp)
    · rw [if_neg hc] at h
      exact absurd h (by simp)

theorem matchAt_spec (s m cap : Str) (h : matchAt s = some (m, cap)) :
    m <+: s ∧ cap.length < m.length ∧ m ≠ [] := by
  unfold matchAt at h
  split at h
  · exact absurd h (by simp)
  · rename_i hd rest hmh
    split at h
    · exact absurd h (by simp)
    · rename_i m' cap' hsh
      simp only [Option.some.injEq, Prod.mk.injEq] at h
      obtain ⟨hm, hcap⟩ := h
      rw [← hm, ← hcap]
      obtain ⟨hs, hne⟩ := matchHead_spec s hd rest hmh
      obtain ⟨hpre, hlen⟩ := scanHash_spec rest m' cap' hsh
      obtain ⟨t, ht⟩ := hpre
      refine ⟨⟨t, by rw [hs, List.append_assoc, ht]⟩, ?_, ?_⟩
      · have : 1 ≤ hd.length := List.length_pos.mpr hne
        simp only [List.length_append]
        omega
      · intro hcontra
        have := congrArg List.length hcontra
        simp only [List.length_append, List.length_nil] at this
        have : 1 ≤ hd.length := List.length_pos.mpr hne
        omega

theorem findMatch_spec :
    ∀ s m cap, findMatch s = some (m, cap) →
      m <:+: s ∧ cap.length < m.length ∧ m ≠ [] := by
  intro s
  induction s with
  | nil => intro m cap h; simp [findMatch] at h
  | cons c rest ih =>
    intro m cap h
    simp only [findMatch] at h
    cases hma : matchAt (c :: rest) with
    | some r =>
      rw [hma] at h
      obtain ⟨m', cap'⟩ := r
      simp only [Option.some.injEq, Prod.mk.injEq] at h
      obtain ⟨hm, hcap⟩ := h
      subst hm; subst hcap
      obtain ⟨hpre, hlen, hne⟩ := matchAt_spec _ _ _ hma
      exact ⟨hpre.isInfix, hlen, hne⟩
    | none =>
      rw [hma] at h
      obtain ⟨hinf, hlen, hne⟩ := ih m cap h
      exact ⟨List.infix_cons hinf, hlen, hne⟩

theorem replaceAll_length_le (pat repl : Str) (hle : repl.length ≤ pat.length) :
    ∀ n s, s.length ≤ n → (replaceAll pat repl s).length ≤ s.length := by
  intro n
  induction n with
  | zero =>
    intro s hs
    have : s = [] := List.eq_nil_of_length_eq_zero (Nat.le_zero.mp hs)
    subst this
    simp [replaceAll_nil]
  | succ n ih =>
    intro s hs
    cases s with
    | nil => simp [replaceAll_nil]
    | cons c rest =>
      by_cases hcond : pat ≠ [] ∧ isPrefixL pat (c :: rest) = true
      · rw [replaceAll_pos pat repl c rest hcond.1 hcond.2]
        have hplen : pat.length ≤ rest.length + 1 := by
          have := (isPrefixL_iff pat (c :: rest)).mp hcond.2
          have := this.length_le
          simpa using this
        have hp1 : 1 ≤ pat.length :=
          List.length_pos.mpr hcond.1
        have hrec := ih (rest.drop (pat.length - 1)) (by
          simp only [List.length_drop]
          simp only [List.length_cons] at hs
          omega)
        simp only [List.length_append, List.length_cons, List.length_drop] at *
        omega
      · rw [replaceAll_neg pat repl c rest hcond]
        have hrec := ih rest (by simp only [List.length_cons] at hs; omega)
        simp only [List.length_cons]
        omega

theorem replaceAll_length_lt (pat repl : Str) (hne : pat ≠ [])
    (hlt : repl.length < pat.length) :
    ∀ n s, s.length ≤ n → pat <:+: s → (replaceAll pat repl s).length < s.length := by
  intro n
  induction n with
  | zero =>
    intro s hs hinf
    have : s = [] := List.eq_nil_of_length_eq_zero (Nat.le_zero.mp hs)
    subst this
    exact absurd (List.eq_nil_of_infix_nil hinf) hne
  | succ n ih =>
    intro s hs hinf
    cases s with
    | nil => exact absurd (List.eq_nil_of_infix_nil hinf) hne
    | cons c rest =>
      by_cases hpre : isPrefixL pat (c :: rest) = true
      · rw [replaceAll_pos pat repl c rest hne hpre]
        have hplen : pat.length ≤ rest.length + 1 := by
          have := ((isPrefixL_iff pat (c :: rest)).mp hpre).length_le
          simpa using this
        have hp1 : 1 ≤ pat.length := List.length_pos.mpr hne
        have hrec := replaceAll_length_le pat repl (Nat.le_of_lt hlt)
          n (rest.drop (pat.length - 1)) (by
            simp only [List.length_drop]
            simp only [List.length_cons] at hs
            omega)
        simp only [List.length_append, List.length_cons, List.length_drop] at *
        omega
      · rw [replaceAll_neg pat repl c rest (by simp [hpre])]
        have hinf' : pat <:+: rest := by
          rcases List.infix_cons_iff.mp hinf with h | h
          · exact absurd ((isPrefixL_iff pat (c :: rest)).mpr h) (by simp [hpre])
          · exact h
        have hrec := ih rest (by simp only [List.length_cons] at hs; omega) hinf'
        simp only [List.length_cons]
        omega

/-- Worker for `preprocessCommitMessage`, structurally recursive on a fuel
that bounds the input length: every loop iteration replaces at least one
occurrence of the match by the strictly shorter capture, so the string
length strictly decreases and `s.length` iterations always suffice
(`preprocessAux_fuel`). -/
def preprocessAux : Nat → Str → Str
  | 0, s => s
  | Nat.succ fuel, s =>
    match findMatch s with
    | none => s
    | some (m, cap) => preprocessAux fuel (replaceAll m cap s)

/-- `preprocessCommitMessage` from `file-summary.ts`: repeatedly find the
leftmost occurrence of the commit-link markup and replace every occurrence
of the matched text by the captured raw identifier, until no match
remains. -/
def preprocessCommitMessage (s : Str) : Str := preprocessAux s.length s

theorem replaceAll_shrinks (s m cap : Str) (h : findMatch s = some (m, cap)) :
    (replaceAll m cap s).length < s.length := by
  obtain ⟨hinf, hlen, hne⟩ := findMatch_spec s m cap h
  exact replaceAll_length_lt m cap hne hlen s.length s (le_refl _) hinf

theorem preprocessAux_fuel :
    ∀ fuel₁ fuel₂ s, s.length ≤ fuel₁ → s.length ≤ fuel₂ →
      preprocessAux fuel₁ s = preprocessAux fuel₂ s := by
  intro fuel₁
  induction fuel₁ with
  | zero =>
    intro fuel₂ s h₁ _
    have hs : s = [] := List.eq_nil_of_length_eq_zero (Nat.le_zero.mp h₁)
    subst hs
    cases fuel₂ <;> rfl
  | succ f₁ ih =>
    intro fuel₂ s h₁ h₂
    cases fuel₂ with
    | zero =>
      have hs : s = [] := List.eq_nil_of_length_eq_zero (Nat.le_zero.mp h₂)
      subst hs
      rfl
    | succ f₂ =>
      simp only [preprocessAux]
      cases hm : findMatch s with
      | none => rfl
      | some p =>
        obtain ⟨m, cap⟩ := p
        have hlt := replaceAll_shrinks s m cap hm
        exact ih f₂ (replaceAll m cap s)
          (by omega) (by omega)

theorem preprocess_none (s : Str) (h : findMatch s = none) :
    preprocessCommitMessage s = s := by
  unfold preprocessCommitMessage
  cases hn : s.length with
  | zero => rfl
  | succ k =>
    simp only [preprocessAux, h]

theorem preprocess_step (s m cap : Str) (h : findMatch s = some (m, cap)) :
    preprocessCommitMessage s = preprocessCommitMessage (replaceAll m cap s) := by
  have hlt := replaceAll_shrinks s m cap h
  unfold preprocessCommitMessage
  cases hn : s.length with
  | zero =>
    have : s = [] := List.eq_nil_of_length_eq_zero hn
    subst this
    simp [findMatch] at h
  | succ k =>
    simp only [preprocessAux, h]
    exact preprocessAux_fuel k _ (replaceAll m cap s) (by omega) (le_refl _)

/-! ## The Summarizer: `getOpenAISummaryForFile`

The completion service is an oracle `complete` from the assembled user
prompt to an outcome; the fixed request parameters (model name,
temperature, token cap, system prompt) do not influence any observable
behaviour modelled here and are omitted.  The result is paired with the
log of completion calls made (the `(filename, patch)` argument pair of
each call), so that "no completion-service call occurs" is expressible. -/

/-- Outcome of one completion call: a thrown transport error, or a
response whose `choices` field may be `undefined`; each choice's
`message.content` may be `null`. -/
inductive CompletionResult where
  | err
  | ok (choices : Option (List (Option Str)))

/-- The sentinel `"Error: couldn't generate summary"`. -/
def sentinel : Str := str "Error: couldn't generate summary"

/-- The user prompt assembled by `getOpenAISummaryForFile`. -/
def promptFor (filename patch : Str) : Str :=
  str "THE GIT DIFF OF " ++ filename ++ str " TO BE SUMMARIZED:\n```\n" ++
    patch ++ str "\n```\n\nSUMMARY:\n"

/-- `getOpenAISummaryForFile(filename, patch)`.  `maxLen` is
`MAX_OPEN_AI_QUERY_LENGTH`, imported from `openai.ts` which is not part
of the sources; its value is left abstract.  Returns the summary text and
the list of completion calls issued.  The oversized-prompt branch throws
before the service is called; the local `catch` converts every throw into
the sentinel. -/
def getOpenAISummaryForFile (maxLen : Nat) (complete : Str → CompletionResult)
    (filename patch : Str) : Str × List (Str × Str) :=
  let openAIPrompt := promptFor filename patch
  if openAIPrompt.length > maxLen then
    (sentinel, [])
  else
    match complete openAIPrompt with
    | .err => (sentinel, [(filename, patch)])
    | .ok none => (sentinel, [(filename, patch)])
    | .ok (some []) => (sentinel, [(filename, patch)])
    | .ok (some (content :: _)) => (content.getD sentinel, [(filename, patch)])

/-! ## The Reconciler: `getFileSummaries` -/

/-- `MAX_FILES_TO_SUMMARIZE` from `file-summary.ts`. -/
def MAX_FILES_TO_SUMMARIZE : Nat := 20

/-- One element of `octokit.pulls.listFiles(...).data`. -/
structure FileChanged where
  filename : Str
  sha : Str
  patch : Option Str

/-- One element of `baseCommitTree.data.tree`. -/
structure TreeEntry where
  path : Str
  sha : Option Str

/-- The `ModifiedFile` record built per changed file (from `types.ts`). -/
structure ModifiedFile where
  sha : Str
  originSha : Str
  diff : Str
  position : JsNum
  filename : Str
deriving DecidableEq, Repr

/-- A raw review comment as returned by the paginated
`listReviewComments` call: `body` may be absent. -/
structure RawComment where
  body : Option Str
  id : Nat

/-- A comment after `getReviewComments`: normalized body and id. -/
structure NormComment where
  message : Str
  id : Nat
deriving DecidableEq, Repr

/-- The repository reference (`repository.owner.login`, `repository.name`). -/
structure Repo where
  ownerLogin : Str
  name : Str

/-- The data the run reads from the source-control service: changed
files, PR base/head commit identifiers, the recursive base tree, and the
review comments. -/
structure Env where
  filesChanged : List FileChanged
  baseSha : Str
  headSha : Str
  baseTree : List TreeEntry
  comments : List RawComment

/-- `Number(file.patch?.split("+")[1]?.split(",")[0]) ?? 0`.

`jsNumber` is the ECMAScript string-to-number conversion, left abstract.
When the optional chain yields `undefined`, `Number(undefined)` is `NaN`;
the trailing `?? 0` never fires because `NaN` is not nullish, so the
nullish branch is modelled as `NaN`. -/
def parsePosition (jsNumber : Str → JsNum) (patch : Option Str) : JsNum :=
  match patch with
  | none => JsNum.nan
  | some p =>
    match (splitChar '+' p).drop 1 with
    | [] => JsNum.nan
    | seg :: _ => jsNumber ((splitChar ',' seg).headD [])

/-- The `ModifiedFile` value built for one changed file: its head-side
blob `sha`, the base-tree blob (`"None"` when the file is absent from the
base tree or its `sha` is undefined), the diff text (`""` when the patch
is absent), and the parsed position. -/
def mkModifiedFile (jsNumber : Str → JsNum) (tree : List TreeEntry)
    (file : FileChanged) : ModifiedFile :=
  { sha := file.sha
    originSha :=
      match tree.find? (fun t => t.path = file.filename) with
      | some t => t.sha.getD noneStr
      | none => noneStr
    diff := file.patch.getD []
    position := parsePosition jsNumber file.patch
    filename := file.filename }

/-- The `filesChanged.data.reduce(...)` building the `modifiedFiles`
record keyed by filename. -/
def buildModifiedFiles (jsNumber : Str → JsNum) (tree : List TreeEntry)
    (files : List FileChanged) : List (Str × ModifiedFile) :=
  files.foldl
    (fun acc file =>
      recordInsert file.filename (mkModifiedFile jsNumber tree file) acc)
    []

/-- The bot-comment marker `"GPT summary of"`. -/
def gptMarker : Str := str "GPT summary of"

/-- The expected raw title `"GPT summary of {originSha} - {sha}:"` for a
modified file (also `getTitle` in `utils.ts`). -/
def expectedTitle (f : ModifiedFile) : Str :=
  str "GPT summary of " ++ f.originSha ++ str " - " ++ f.sha ++ str ":"

/-- The git-lfs placeholder marker checked by the skip rule. -/
def lfsMarker : Str := str "https://git-lfs.github.com/"

/-- `getReviewComments`: every comment's body (`""` when absent) is
normalized by `preprocessCommitMessage`. -/
def normComments (env : Env) : List NormComment :=
  env.comments.map (fun c => ⟨preprocessCommitMessage (c.body.getD []), c.id⟩)

/-- `allComments.filter(comment => comment.message.startsWith("GPT summary of"))`. -/
def aiComments (env : Env) : List NormComment :=
  (normComments env).filter (fun c => isPrefixL gptMarker c.message)

/-- The review comment created for a fresh summary (arguments of
`octokit.pulls.createReviewComment`).  The source passes `pullNumber`,
an unbound name, as `pull_number`; it is modelled as the enclosing
`pull_number` parameter. -/
structure CreatedComment where
  owner : Str
  repo : Str
  pull_number : Nat
  commit_id : Str
  path : Str
  line : JsNum
  side : Str
  body : Str
deriving DecidableEq, Repr

/-- The markup-link comment body assembled for a fresh summary
(lines 125-135 of `file-summary.ts`); `slice(0, 6)` is `take 6`. -/
def commentBody (repo : Repo) (baseSha headSha : Str) (filename : Str)
    (originSha sha : Str) (summary : Str) : Str :=
  str "GPT summary of [" ++ originSha.take 6 ++ str "](https://github.com/" ++
    repo.ownerLogin ++ str "/" ++ repo.name ++ str "/blob/" ++ baseSha ++
    str "/" ++ filename ++ str "#" ++ originSha ++ str ") - [" ++
    sha.take 6 ++ str "](https://github.com/" ++ repo.ownerLogin ++ str "/" ++
    repo.name ++ str "/blob/" ++ headSha ++ str "/" ++ filename ++ str "#" ++
    sha ++ str "):\n" ++ summary

/-- The `line:` argument: the parsed position when finite and positive,
else `1`. -/
def lineFor (f : ModifiedFile) : JsNum :=
  if f.position.isFinite = true then
    if f.position.gtZero = true then f.position else JsNum.fin 1
  else JsNum.fin 1

/-- The `side:` argument: `"RIGHT"` when the position is positive or the
file is new in the base tree, else `"LEFT"`. -/
def sideFor (f : ModifiedFile) : Str :=
  if f.position.gtZero = true ∨ f.originSha = noneStr then str "RIGHT"
  else str "LEFT"

/-- The `createReviewComment` argument record for one fresh summary. -/
def mkReviewComment (repo : Repo) (pull_number : Nat) (baseSha headSha : Str)
    (f : ModifiedFile) (summary : Str) : CreatedComment :=
  { owner := repo.ownerLogin
    repo := repo.name
    pull_number := pull_number
    commit_id := headSha
    path := f.filename
    line := lineFor f
    side := sideFor f
    body := commentBody repo baseSha headSha f.filename f.originSha f.sha summary }

/-- Mutable state of the generation loop: the `result` record, the
`summarizedFiles` counter, and the logs of created comments and
completion calls. -/
structure GenState where
  result : List (Str × Str)
  summarizedFiles : Nat
  created : List CreatedComment
  calls : List (Str × Str)
deriving Repr

/-- Everything the generation loop reads but does not change. -/
structure Ctx where
  repo : Repo
  pull_number : Nat
  baseSha : Str
  headSha : Str
  aiComments : List NormComment
  maxLen : Nat
  complete : Str → CompletionResult
  create : CreatedComment → Bool

/-- The generation loop of `getFileSummaries`, one iteration per modified
file, in record order.  Returns the final state and whether the loop was
aborted by a failed `createReviewComment` (whose rejection is not caught
in the source and propagates).  The `result` entry is written before the
creation is attempted, as in the source; a failed creation leaves the
counter and logs untouched and stops the loop. -/
def processFiles (ctx : Ctx) : List ModifiedFile → GenState → GenState × Bool
  | [], st => (st, false)
  | f :: rest, st =>
    if f.diff = [] then
      processFiles ctx rest st
    else if containsSub lfsMarker f.diff = true then
      processFiles ctx rest st
    else
      match ctx.aiComments.find? (fun c => containsSub (expectedTitle f) c.message) with
      | some c =>
        processFiles ctx rest
          { st with result := recordInsert f.filename (stripFirstLine c.message) st.result }
      | none =>
        let s := getOpenAISummaryForFile ctx.maxLen ctx.complete f.filename f.diff
        let cc := mkReviewComment ctx.repo ctx.pull_number ctx.baseSha ctx.headSha f s.1
        let st1 : GenState :=
          { result := recordInsert f.filename s.1 st.result
            summarizedFiles := st.summarizedFiles
            created := st.created
            calls := st.calls ++ s.2 }
        if ctx.create cc then
          let st2 : GenState :=
            { st1 with
              created := st1.created ++ [cc]
              summarizedFiles := st1.summarizedFiles + 1 }
          if MAX_FILES_TO_SUMMARIZE ≤ st2.summarizedFiles then (st2, false)
          else processFiles ctx rest st2
        else (st1, true)

/-- Result of a whole run: ids of deleted comments, final loop state, and
whether the run was aborted by a failed comment creation. -/
structure RunOutcome where
  deleted : List Nat
  final : GenState
  aborted : Bool
deriving Repr

/-- The value `getFileSummaries` returns to its caller: the
filename-to-summary record on normal completion, nothing when the
uncaught creation failure aborted the run. -/
def returnedMapping (r : RunOutcome) : Option (List (Str × Str)) :=
  if r.aborted then none else some r.final.result

/-- `getFileSummaries(pull_number, repository)`.

Oracles: `jsNumber` (ECMAScript `Number()` on strings), `maxLen`
(`MAX_OPEN_AI_QUERY_LENGTH`), `complete` (the completion service), and
`create` (whether each `createReviewComment` call succeeds).  `env` holds
the data read from the source-control service.  The deletion pass issues
all deletions before the generation loop runs, as in the source. -/
def getFileSummaries (jsNumber : Str → JsNum) (maxLen : Nat)
    (complete : Str → CompletionResult) (create : CreatedComment → Bool)
    (env : Env) (repo : Repo) (pull_number : Nat) : RunOutcome :=
  let modifiedFiles := buildModifiedFiles jsNumber env.baseTree env.filesChanged
  let ai := aiComments env
  let commentsToDelete :=
    (recordValues modifiedFiles).foldl
      (fun acc f => acc.filter (fun c => !(containsSub (expectedTitle f) c.message)))
      ai
  let ctx : Ctx :=
    { repo := repo
      pull_number := pull_number
      baseSha := env.baseSha
      headSha := env.headSha
      aiComments := ai
      maxLen := maxLen
      complete := complete
      create := create }
  let out := processFiles ctx (recordValues modifiedFiles)
    { result := [], summarizedFiles := 0, created := [], calls := [] }
  { deleted := commentsToDelete.map NormComment.id
    final := out.1
    aborted := out.2 }

/-! ## Helper lemmas for the claims -/

theorem getOpenAISummary_calls (maxLen : Nat) (complete : Str → CompletionResult)
    (filename patch : Str) :
    (getOpenAISummaryForFile maxLen complete filename patch).2 = [] ∨
      (getOpenAISummaryForFile maxLen complete filename patch).2 = [(filename, patch)] := by
  unfold getOpenAISummaryForFile
  by_cases h : (promptFor filename patch).length > maxLen
  · rw [if_pos h]; left; rfl
  · rw [if_neg h]
    cases complete (promptFor filename patch) with
    | err => right; rfl
    | ok choices =>
      cases choices with
      | none => right; rfl
      | some cs => cases cs with
        | nil => right; rfl
        | cons c cs' => right; rfl

theorem foldl_filter {α β : Type} (p : α → β → Bool) :
    ∀ (fs : List α) (l : List β),
      fs.foldl (fun acc f => acc.filter (p f)) l =
        l.filter (fun c => fs.all (fun f => p f c)) := by
  intro fs
  induction fs with
  | nil => intro l; simp
  | cons f fs ih =>
    intro l
    simp only [List.foldl_cons, ih, List.filter_filter, List.all_cons]
    apply List.filter_congr
    intro c _
    rw [Bool.and_comm]

/-! ## Claims C7 and C8: the Summarizer's sentinel behaviour -/

/-- Claim C7: for every filename and diff whose assembled user prompt is
longer than the maximum query length, `getOpenAISummaryForFile` returns
the sentinel string and issues no completion-service call. -/
theorem claimC7 (maxLen : Nat) (complete : Str → CompletionResult)
    (filename patch : Str) (h : (promptFor filename patch).length > maxLen) :
    getOpenAISummaryForFile maxLen complete filename patch = (sentinel, []) := by
  unfold getOpenAISummaryForFile
  rw [if_pos h]

/-- Witness for C7 at a concrete oversized input. -/
theorem claimC7_witness :
    (promptFor (str "a") (str "b")).length > 3 ∧
      getOpenAISummaryForFile 3 (fun _ => CompletionResult.err) (str "a") (str "b") =
        (sentinel, []) :=
  ⟨by decide, claimC7 3 (fun _ => CompletionResult.err) (str "a") (str "b") (by decide)⟩

/-- Counterexample to claim C8 as stated: a completion whose first
choice's content is the empty string is returned verbatim, not replaced
by the sentinel, because the nullish coalescing `??` does not fire on
`""`. -/
theorem claimC8_cex :
    (getOpenAISummaryForFile 1000
        (fun _ => CompletionResult.ok (some [some []])) (str "a") (str "b")).1 ≠
      sentinel := by decide

/-- Claim C8 as amended: when the prompt is not oversized and the
response has at least one choice, the result is the first choice's
content when that content is present — including when it is the empty
string — and the sentinel only when the content is missing (null). -/
theorem claimC8 (maxLen : Nat) (complete : Str → CompletionResult)
    (filename patch : Str) (content : Option Str) (rest : List (Option Str))
    (hlen : ¬(promptFor filename patch).length > maxLen)
    (hresp : complete (promptFor filename patch) =
      CompletionResult.ok (some (content :: rest))) :
    getOpenAISummaryForFile maxLen complete filename patch =
      (content.getD sentinel, [(filename, patch)]) := by
  unfold getOpenAISummaryForFile
  rw [if_neg hlen, hresp]

/-- Witness for C8 at a concrete input with a present, nonempty content. -/
theorem claimC8_witness :
    getOpenAISummaryForFile 1000
        (fun _ => CompletionResult.ok (some [some (str "hi")])) (str "a") (str "b") =
      ((some (str "hi")).getD sentinel, [(str "a", str "b")]) :=
  claimC8 1000 (fun _ => CompletionResult.ok (some [some (str "hi")]))
    (str "a") (str "b") (some (str "hi")) [] (by decide) rfl

/-! ## Claim C2: stale-comment deletion -/

/-- Claim C2: the deleted comments are exactly the comments whose
normalized body starts with the `"GPT summary of"` marker and contains
the expected title of no currently modified file; in particular a comment
whose body does not start with the marker is never deleted. -/
theorem claimC2 (jsNumber : Str → JsNum) (maxLen : Nat)
    (complete : Str → CompletionResult) (create : CreatedComment → Bool)
    (env : Env) (repo : Repo) (pull_number : Nat) :
    (getFileSummaries jsNumber maxLen complete create env repo pull_number).deleted =
      ((aiComments env).filter (fun c =>
        (recordValues (buildModifiedFiles jsNumber env.baseTree env.filesChanged)).all
          (fun f => !(containsSub (expectedTitle f) c.message)))).map NormComment.id := by
  unfold getFileSummaries
  dsimp only
  rw [foldl_filter]

/-! ## Claim C10: termination of the normalization loop -/

theorem preprocessAux_fixpoint :
    ∀ n s, s.length ≤ n → findMatch (preprocessAux n s) = none := by
  intro n
  induction n with
  | zero =>
    intro s h
    have hs : s = [] := List.eq_nil_of_length_eq_zero (Nat.le_zero.mp h)
    subst hs
    rfl
  | succ n ih =>
    intro s h
    simp only [preprocessAux]
    cases hm : findMatch s with
    | none => exact hm
    | some p =>
      obtain ⟨m, cap⟩ := p
      have hlt := replaceAll_shrinks s m cap hm
      exact ih (replaceAll m cap s) (by omega)

/-- Claim C10: the normalization loop of `preprocessCommitMessage`
terminates on every input: each iteration replaces every occurrence of
the matched markup by the strictly shorter capture, so the string length
strictly decreases; consequently the final string has no remaining
match. -/
theorem claimC10 :
    (∀ s m cap, findMatch s = some (m, cap) →
      (replaceAll m cap s).length < s.length) ∧
    (∀ s, findMatch (preprocessCommitMessage s) = none) := by
  constructor
  · exact replaceAll_shrinks
  · intro s
    exact preprocessAux_fixpoint s.length s (le_refl _)

/-- Witness for C10: the strict length decrease at a concrete matching
input. -/
theorem claimC10_witness :
    (replaceAll (str "[abcdef](https://github.com/x#None)") (str "None")
        (str "[abcdef](https://github.com/x#None)")).length <
      (str "[abcdef](https://github.com/x#None)").length :=
  claimC10.1 (str "[abcdef](https://github.com/x#None)")
    (str "[abcdef](https://github.com/x#None)") (str "None") (by decide)

/-! ## Claim C9: a failed comment creation aborts the rest of the run -/

/-- Claim C9: when creating the review comment for a file fails, the
rejection is not caught inside the loop: the iteration stops immediately
with the abort flag set — no later file is summarized or commented (the
returned state is exactly the state after the failing file, independent
of the remaining files) — and an aborted run returns no result mapping
to the caller. -/
theorem claimC9 (ctx : Ctx) (f : ModifiedFile) (rest : List ModifiedFile)
    (st : GenState)
    (hdiff : f.diff ≠ [])
    (hlfs : containsSub lfsMarker f.diff = false)
    (hfind : ctx.aiComments.find?
      (fun c => containsSub (expectedTitle f) c.message) = none)
    (hcreate : ctx.create (mkReviewComment ctx.repo ctx.pull_number ctx.baseSha
      ctx.headSha f (getOpenAISummaryForFile ctx.maxLen ctx.complete
        f.filename f.diff).1) = false) :
    processFiles ctx (f :: rest) st =
      ({ result := recordInsert f.filename
            (getOpenAISummaryForFile ctx.maxLen ctx.complete f.filename f.diff).1
            st.result
         summarizedFiles := st.summarizedFiles
         created := st.created
         calls := st.calls ++
            (getOpenAISummaryForFile ctx.maxLen ctx.complete f.filename f.diff).2 },
        true) ∧
    (∀ (jsNumber : Str → JsNum) (maxLen : Nat) (complete : Str → CompletionResult)
        (create : CreatedComment → Bool) (env : Env) (repo : Repo)
        (pull_number : Nat),
      (getFileSummaries jsNumber maxLen complete create env repo pull_number).aborted =
          true →
        returnedMapping (getFileSummaries jsNumber maxLen complete create env repo
          pull_number) = none) := by
  constructor
  · simp only [processFiles, if_neg hdiff, hlfs, hfind]
    simp only [Bool.false_eq_true, if_false, hcreate]
  · intro jsNumber maxLen complete create env repo pull_number hab
    unfold returnedMapping
    rw [hab]
    rfl

/-- Concrete loop context for the C9 witness: empty bot-comment list, a
completion service that throws, and a comment creation that fails. -/
def ctxC9 : Ctx :=
  { repo := ⟨str "o", str "r"⟩
    pull_number := 1
    baseSha := str "b"
    headSha := str "h"
    aiComments := []
    maxLen := 1000
    complete := fun _ => CompletionResult.err
    create := fun _ => false }

/-- Concrete modified file for the C9 witness. -/
def fileC9 : ModifiedFile :=
  { sha := str "s", originSha := str "O", diff := str "d",
    position := JsNum.nan, filename := str "f" }

/-- A second file after the failing one, to exhibit that it is not
processed. -/
def fileC9b : ModifiedFile :=
  { sha := str "s2", originSha := str "O2", diff := str "d2",
    position := JsNum.nan, filename := str "g" }

/-- Witness for C9 at a concrete input: the loop stops at the failing
file with the abort flag set and the second file untouched. -/
theorem claimC9_witness :
    processFiles ctxC9 [fileC9, fileC9b] ⟨[], 0, [], []⟩ =
      ({ result := recordInsert fileC9.filename
            (getOpenAISummaryForFile ctxC9.maxLen ctxC9.complete fileC9.filename
              fileC9.diff).1 []
         summarizedFiles := 0
         created := []
         calls := [] ++ (getOpenAISummaryForFile ctxC9.maxLen ctxC9.complete
            fileC9.filename fileC9.diff).2 },
        true) :=
  (claimC9 ctxC9 fileC9 [fileC9b] ⟨[], 0, [], []⟩
    (by decide) (by decide) rfl rfl).1

/-! ### Record (JS object) facts -/

theorem recordGet_insert_self {α : Type} (k : Str) (v : α) :
    ∀ l, recordGet k (recordInsert k v l) = some v := by
  intro l
  induction l with
  | nil =>
    show (if k = k then some v else recordGet k ([] : List (Str × α))) = some v
    rw [if_pos rfl]
  | cons p rest ih =>
    obtain ⟨k', v'⟩ := p
    by_cases h : k' = k
    · rw [recordInsert, if_pos h]
      show (if k = k then some v else recordGet k rest) = some v
      rw [if_pos rfl]
    · rw [recordInsert, if_neg h]
      show (if k' = k then some v' else recordGet k (recordInsert k v rest)) = some v
      rw [if_neg h]
      exact ih

theorem recordGet_insert_ne {α : Type} (k k' : Str) (v : α) (hne : k' ≠ k) :
    ∀ l, recordGet k (recordInsert k' v l) = recordGet k l := by
  intro l
  induction l with
  | nil =>
    show (if k' = k then some v else recordGet k ([] : List (Str × α))) =
      recordGet k ([] : List (Str × α))
    rw [if_neg hne]
  | cons p rest ih =>
    obtain ⟨k'', v''⟩ := p
    by_cases h : k'' = k'
    · subst h
      rw [recordInsert, if_pos rfl]
      show (if k'' = k then some v else recordGet k rest) =
        if k'' = k then some v'' else recordGet k rest
      rw [if_neg hne, if_neg hne]
    · rw [recordInsert, if_neg h]
      show (if k'' = k then some v'' else recordGet k (recordInsert k' v rest)) =
        if k'' = k then some v'' else recordGet k rest
      by_cases h2 : k'' = k
      · rw [if_pos h2, if_pos h2]
      · rw [if_neg h2, if_neg h2]
        exact ih

theorem mem_keys_insert {α : Type} (x k : Str) (v : α) :
    ∀ l, x ∈ (recordInsert k v l).map Prod.fst ↔ x = k ∨ x ∈ l.map Prod.fst := by
  intro l
  induction l with
  | nil =>
    rw [recordInsert]
    simp only [List.map_cons, List.map_nil, List.mem_singleton, List.not_mem_nil,
      or_false]
  | cons p rest ih =>
    obtain ⟨k', v'⟩ := p
    by_cases h : k' = k
    · subst h
      rw [recordInsert, if_pos rfl]
      simp only [List.map_cons, List.mem_cons]
      tauto
    · rw [recordInsert, if_neg h]
      simp only [List.map_cons, List.mem_cons, ih]
      tauto

theorem nodup_keys_insert {α : Type} (k : Str) (v : α) :
    ∀ l, (l.map Prod.fst).Nodup → ((recordInsert k v l).map Prod.fst).Nodup := by
  intro l
  induction l with
  | nil =>
    intro _
    rw [recordInsert]
    simp
  | cons p rest ih =>
    obtain ⟨k', v'⟩ := p
    intro hnd
    simp only [List.map_cons, List.nodup_cons] at hnd
    by_cases h : k' = k
    · subst h
      rw [recordInsert, if_pos rfl]
      simp only [List.map_cons, List.nodup_cons]
      exact hnd
    · rw [recordInsert, if_neg h]
      simp only [List.map_cons, List.nodup_cons]
      refine ⟨?_, ih hnd.2⟩
      rw [mem_keys_insert]
      push_neg
      exact ⟨h, hnd.1⟩

theorem snd_prop_insert {α : Type} (P : α → Str → Prop) (k : Str) (v : α)
    (hv : P v k) :
    ∀ l, (∀ p ∈ l, P p.2 p.1) → ∀ p ∈ recordInsert k v l, P p.2 p.1 := by
  intro l
  induction l with
  | nil =>
    intro _ p hp
    rw [recordInsert] at hp
    simp only [List.mem_singleton] at hp
    subst hp
    exact hv
  | cons q rest ih =>
    obtain ⟨k', v'⟩ := q
    intro hl p hp
    by_cases h : k' = k
    · rw [recordInsert, if_pos h] at hp
      rcases List.mem_cons.mp hp with hh | hh
      · subst hh; exact hv
      · exact hl _ (List.mem_cons_of_mem _ hh)
    · rw [recordInsert, if_neg h] at hp
      rcases List.mem_cons.mp hp with hh | hh
      · subst hh; exact hl _ (List.mem_cons_self _ _)
      · exact ih (fun q hq => hl q (List.mem_cons_of_mem _ hq)) p hh

theorem foldl_insert_nodup {α : Type} (val : FileChanged → α) :
    ∀ (fs : List FileChanged) (acc : List (Str × α)),
      (acc.map Prod.fst).Nodup →
      ((fs.foldl (fun acc file => recordInsert file.filename (val file) acc)
          acc).map Prod.fst).Nodup := by
  intro fs
  induction fs with
  | nil => intro acc h; exact h
  | cons f fs ih =>
    intro acc h
    exact ih _ (nodup_keys_insert _ _ _ h)

theorem foldl_insert_prop {α : Type} (val : FileChanged → α)
    (P : α → Str → Prop) (hval : ∀ file, P (val file) file.filename) :
    ∀ (fs : List FileChanged) (acc : List (Str × α)),
      (∀ p ∈ acc, P p.2 p.1) →
      ∀ p ∈ fs.foldl (fun acc file => recordInsert file.filename (val file) acc) acc,
        P p.2 p.1 := by
  intro fs
  induction fs with
  | nil => intro acc h; exact h
  | cons f fs ih =>
    intro acc h
    exact ih _ (snd_prop_insert P _ _ (hval f) acc h)

theorem buildMF_keys_nodup (jsNumber : Str → JsNum) (tree : List TreeEntry)
    (files : List FileChanged) :
    ((buildModifiedFiles jsNumber tree files).map Prod.fst).Nodup := by
  unfold buildModifiedFiles
  exact foldl_insert_nodup (mkModifiedFile jsNumber tree) files [] (by simp)

theorem buildMF_snd_filename (jsNumber : Str → JsNum) (tree : List TreeEntry)
    (files : List FileChanged) :
    ∀ p ∈ buildModifiedFiles jsNumber tree files, p.2.filename = p.1 := by
  unfold buildModifiedFiles
  exact foldl_insert_prop (mkModifiedFile jsNumber tree)
    (fun v k => v.filename = k) (fun _ => rfl) files [] (by simp)

theorem values_filename_nodup (jsNumber : Str → JsNum) (tree : List TreeEntry)
    (files : List FileChanged) :
    ((recordValues (buildModifiedFiles jsNumber tree files)).map
      ModifiedFile.filename).Nodup := by
  have hmap : (recordValues (buildModifiedFiles jsNumber tree files)).map
      ModifiedFile.filename = (buildModifiedFiles jsNumber tree files).map Prod.fst := by
    unfold recordValues
    rw [List.map_map]
    exact List.map_congr_left (fun p hp => buildMF_snd_filename _ _ _ p hp)
  rw [hmap]
  exact buildMF_keys_nodup jsNumber tree files

theorem values_filename_inj (jsNumber : Str → JsNum) (tree : List TreeEntry)
    (files : List FileChanged) (f g : ModifiedFile)
    (hf : f ∈ recordValues (buildModifiedFiles jsNumber tree files))
    (hg : g ∈ recordValues (buildModifiedFiles jsNumber tree files))
    (hfg : f.filename = g.filename) : f = g :=
  List.inj_on_of_nodup_map (values_filename_nodup jsNumber tree files) hf hg hfg

/-! ### Step equations for the generation loop -/

theorem getOpenAISummary_calls_fst (maxLen : Nat)
    (complete : Str → CompletionResult) (fn pa : Str) :
    ∀ p ∈ (getOpenAISummaryForFile maxLen complete fn pa).2, p.1 = fn := by
  intro p hp
  rcases getOpenAISummary_calls maxLen complete fn pa with h | h
  · rw [h] at hp; exact absurd hp (List.not_mem_nil p)
  · rw [h] at hp
    rw [List.mem_singleton] at hp
    subst hp
    rfl

theorem processFiles_nil (ctx : Ctx) (st : GenState) :
    processFiles ctx [] st = (st, false) := rfl

theorem processFiles_skip_empty (ctx : Ctx) (f : ModifiedFile)
    (rest : List ModifiedFile) (st : GenState) (hd : f.diff = []) :
    processFiles ctx (f :: rest) st = processFiles ctx rest st := by
  simp only [processFiles, if_pos hd]

theorem processFiles_skip_lfs (ctx : Ctx) (f : ModifiedFile)
    (rest : List ModifiedFile) (st : GenState) (hd : f.diff ≠ [])
    (hl : containsSub lfsMarker f.diff = true) :
    processFiles ctx (f :: rest) st = processFiles ctx rest st := by
  simp only [processFiles, if_neg hd, if_pos hl]

theorem processFiles_reuse (ctx : Ctx) (f : ModifiedFile)
    (rest : List ModifiedFile) (st : GenState) (c : NormComment)
    (hd : f.diff ≠ []) (hl : containsSub lfsMarker f.diff = false)
    (hfind : ctx.aiComments.find?
      (fun c => containsSub (expectedTitle f) c.message) = some c) :
    processFiles ctx (f :: rest) st = processFiles ctx rest
      { st with result :=
          recordInsert f.filename (stripFirstLine c.message) st.result } := by
  simp only [processFiles, if_neg hd, hl, Bool.false_eq_true, if_false, hfind]

theorem processFiles_fresh_fail (ctx : Ctx) (f : ModifiedFile)
    (rest : List ModifiedFile) (st : GenState)
    (hd : f.diff ≠ []) (hl : containsSub lfsMarker f.diff = false)
    (hfind : ctx.aiComments.find?
      (fun c => containsSub (expectedTitle f) c.message) = none)
    (hcr : ctx.create (mkReviewComment ctx.repo ctx.pull_number ctx.baseSha
      ctx.headSha f (getOpenAISummaryForFile ctx.maxLen ctx.complete
        f.filename f.diff).1) = false) :
    processFiles ctx (f :: rest) st =
      ({ result := recordInsert f.filename
            (getOpenAISummaryForFile ctx.maxLen ctx.complete f.filename f.diff).1
            st.result
         summarizedFiles := st.summarizedFiles
         created := st.created
         calls := st.calls ++
            (getOpenAISummaryForFile ctx.maxLen ctx.complete f.filename f.diff).2 },
        true) := by
  simp only [processFiles, if_neg hd, hl, Bool.false_eq_true, if_false, hfind, hcr]

theorem processFiles_fresh_break (ctx : Ctx) (f : ModifiedFile)
    (rest : List ModifiedFile) (st : GenState)
    (hd : f.diff ≠ []) (hl : containsSub lfsMarker f.diff = false)
    (hfind : ctx.aiComments.find?
      (fun c => containsSub (expectedTitle f) c.message) = none)
    (hcr : ctx.create (mkReviewComment ctx.repo ctx.pull_number ctx.baseSha
      ctx.headSha f (getOpenAISummaryForFile ctx.maxLen ctx.complete
        f.filename f.diff).1) = true)
    (hcap : MAX_FILES_TO_SUMMARIZE ≤ st.summarizedFiles + 1) :
    processFiles ctx (f :: rest) st =
      ({ result := recordInsert f.filename
            (getOpenAISummaryForFile ctx.maxLen ctx.complete f.filename f.diff).1
            st.result
         summarizedFiles := st.summarizedFiles + 1
         created := st.created ++ [mkReviewComment ctx.repo ctx.pull_number
            ctx.baseSha ctx.headSha f (getOpenAISummaryForFile ctx.maxLen
              ctx.complete f.filename f.diff).1]
         calls := st.calls ++
            (getOpenAISummaryForFile ctx.maxLen ctx.complete f.filename f.diff).2 },
        false) := by
  simp only [processFiles, if_neg hd, hl, Bool.false_eq_true, if_false, hfind, hcr,
    if_pos hcap, if_true]

theorem processFiles_fresh_cont (ctx : Ctx) (f : ModifiedFile)
    (rest : List ModifiedFile) (st : GenState)
    (hd : f.diff ≠ []) (hl : containsSub lfsMarker f.diff = false)
    (hfind : ctx.aiComments.find?
      (fun c => containsSub (expectedTitle f) c.message) = none)
    (hcr : ctx.create (mkReviewComment ctx.repo ctx.pull_number ctx.baseSha
      ctx.headSha f (getOpenAISummaryForFile ctx.maxLen ctx.complete
        f.filename f.diff).1) = true)
    (hcap : ¬(MAX_FILES_TO_SUMMARIZE ≤ st.summarizedFiles + 1)) :
    processFiles ctx (f :: rest) st =
      processFiles ctx rest
        { result := recordInsert f.filename
            (getOpenAISummaryForFile ctx.maxLen ctx.complete f.filename f.diff).1
            st.result
          summarizedFiles := st.summarizedFiles + 1
          created := st.created ++ [mkReviewComment ctx.repo ctx.pull_number
            ctx.baseSha ctx.headSha f (getOpenAISummaryForFile ctx.maxLen
              ctx.complete f.filename f.diff).1]
          calls := st.calls ++
            (getOpenAISummaryForFile ctx.maxLen ctx.complete f.filename f.diff).2 } := by
  simp only [processFiles, if_neg hd, hl, Bool.false_eq_true, if_false, hfind, hcr,
    if_neg hcap, if_true]

/-! ### Per-filename invariants of the generation loop -/

theorem processFiles_skip_inv (ctx : Ctx) (k : Str) :
    ∀ (files : List ModifiedFile) (st : GenState),
      (∀ g ∈ files, g.filename = k →
        (g.diff = [] ∨ containsSub lfsMarker g.diff = true)) →
      (∀ p ∈ (processFiles ctx files st).1.calls, p.1 = k → p ∈ st.calls) ∧
      (∀ cc ∈ (processFiles ctx files st).1.created, cc.path = k → cc ∈ st.created) ∧
      recordGet k (processFiles ctx files st).1.result = recordGet k st.result := by
  intro files
  induction files with
  | nil =>
    intro st _
    rw [processFiles_nil]
    exact ⟨fun p hp _ => hp, fun cc hc _ => hc, rfl⟩
  | cons f rest ih =>
    intro st h
    have htail : ∀ g ∈ rest, g.filename = k →
        (g.diff = [] ∨ containsSub lfsMarker g.diff = true) :=
      fun g hg => h g (List.mem_cons_of_mem _ hg)
    by_cases hd : f.diff = []
    · rw [processFiles_skip_empty ctx f rest st hd]
      exact ih st htail
    · cases hl : containsSub lfsMarker f.diff with
      | true =>
        rw [processFiles_skip_lfs ctx f rest st hd hl]
        exact ih st htail
      | false =>
        have hfk : f.filename ≠ k := by
          intro hfk
          rcases h f (List.mem_cons_self _ _) hfk with hc | hc
          · exact hd hc
          · rw [hl] at hc; exact Bool.false_ne_true hc
        cases hfind : ctx.aiComments.find?
            (fun c => containsSub (expectedTitle f) c.message) with
        | some c =>
          rw [processFiles_reuse ctx f rest st c hd hl hfind]
          obtain ⟨ih1, ih2, ih3⟩ := ih _ htail
          refine ⟨ih1, ih2, ?_⟩
          rw [ih3]
          exact recordGet_insert_ne k f.filename _ hfk st.result
        | none =>
          cases hcr : ctx.create (mkReviewComment ctx.repo ctx.pull_number
              ctx.baseSha ctx.headSha f (getOpenAISummaryForFile ctx.maxLen
                ctx.complete f.filename f.diff).1) with
          | true =>
            by_cases hcap : MAX_FILES_TO_SUMMARIZE ≤ st.summarizedFiles + 1
            · rw [processFiles_fresh_break ctx f rest st hd hl hfind hcr hcap]
              refine ⟨?_, ?_, ?_⟩
              · intro p hp hpk
                rcases List.mem_append.mp hp with hp | hp
                · exact hp
                · have hfst := getOpenAISummary_calls_fst ctx.maxLen ctx.complete
                    f.filename f.diff p hp
                  exact absurd (hfst.symm.trans hpk) hfk
              · intro cc hc hck
                rcases List.mem_append.mp hc with hc | hc
                · exact hc
                · rw [List.mem_singleton] at hc
                  subst hc
                  exact absurd hck hfk
              · exact recordGet_insert_ne k f.filename _ hfk st.result
            · rw [processFiles_fresh_cont ctx f rest st hd hl hfind hcr hcap]
              obtain ⟨ih1, ih2, ih3⟩ := ih _ htail
              refine ⟨?_, ?_, ?_⟩
              · intro p hp hpk
                have hmem := ih1 p hp hpk
                rcases List.mem_append.mp hmem with hh | hh
                · exact hh
                · have hfst := getOpenAISummary_calls_fst ctx.maxLen ctx.complete
                    f.filename f.diff p hh
                  exact absurd (hfst.symm.trans hpk) hfk
              · intro cc hc hck
                have hmem := ih2 cc hc hck
                rcases List.mem_append.mp hmem with hh | hh
                · exact hh
                · rw [List.mem_singleton] at hh
                  subst hh
                  exact absurd hck hfk
              · rw [ih3]
                exact recordGet_insert_ne k f.filename _ hfk st.result
          | false =>
            rw [processFiles_fresh_fail ctx f rest st hd hl hfind hcr]
            refine ⟨?_, ?_, ?_⟩
            · intro p hp hpk
              rcases List.mem_append.mp hp with hp | hp
              · exact hp
              · have hfst := getOpenAISummary_calls_fst ctx.maxLen ctx.complete
                  f.filename f.diff p hp
                exact absurd (hfst.symm.trans hpk) hfk
            · intro cc hc _
              exact hc
            · exact recordGet_insert_ne k f.filename _ hfk st.result

/-- The final loop state of a run, re-expressed through `processFiles`. -/
theorem getFileSummaries_final (jsNumber : Str → JsNum) (maxLen : Nat)
    (complete : Str → CompletionResult) (create : CreatedComment → Bool)
    (env : Env) (repo : Repo) (pull_number : Nat) :
    (getFileSummaries jsNumber maxLen complete create env repo pull_number).final =
      (processFiles
        { repo := repo, pull_number := pull_number, baseSha := env.baseSha,
          headSha := env.headSha, aiComments := aiComments env, maxLen := maxLen,
          complete := complete, create := create }
        (recordValues (buildModifiedFiles jsNumber env.baseTree env.filesChanged))
        { result := [], summarizedFiles := 0, created := [], calls := [] }).1 := by
  unfold getFileSummaries
  dsimp only

/-! ## Claim C5: skip rules for binary and git-lfs files -/

/-- Claim C5: a modified file whose diff is empty or contains the
git-lfs marker triggers no completion-service call, gets no new review
comment, and is absent from the result mapping. -/
theorem claimC5 (jsNumber : Str → JsNum) (maxLen : Nat)
    (complete : Str → CompletionResult) (create : CreatedComment → Bool)
    (env : Env) (repo : Repo) (pull_number : Nat) (f : ModifiedFile)
    (hf : f ∈ recordValues (buildModifiedFiles jsNumber env.baseTree env.filesChanged))
    (hskip : f.diff = [] ∨ containsSub lfsMarker f.diff = true) :
    (∀ p ∈ (getFileSummaries jsNumber maxLen complete create env repo
        pull_number).final.calls, p.1 ≠ f.filename) ∧
    (∀ cc ∈ (getFileSummaries jsNumber maxLen complete create env repo
        pull_number).final.created, cc.path ≠ f.filename) ∧
    recordGet f.filename (getFileSummaries jsNumber maxLen complete create env repo
      pull_number).final.result = none := by
  rw [getFileSummaries_final]
  obtain ⟨inv1, inv2, inv3⟩ := processFiles_skip_inv
    { repo := repo, pull_number := pull_number, baseSha := env.baseSha,
      headSha := env.headSha, aiComments := aiComments env, maxLen := maxLen,
      complete := complete, create := create }
    f.filename
    (recordValues (buildModifiedFiles jsNumber env.baseTree env.filesChanged))
    { result := [], summarizedFiles := 0, created := [], calls := [] }
    (by
      intro g hg hgk
      have hgf : g = f := values_filename_inj jsNumber env.baseTree env.filesChanged
        g f hg hf hgk
      rw [hgf]
      exact hskip)
  refine ⟨?_, ?_, inv3⟩
  · intro p hp hpk
    exact absurd (inv1 p hp hpk) (List.not_mem_nil p)
  · intro cc hc hck
    exact absurd (inv2 cc hc hck) (List.not_mem_nil cc)

/-- Concrete environment for the C5 witness: one changed file without a
patch (binary), so its diff is the empty string. -/
def envC5 : Env :=
  { filesChanged := [⟨str "a", str "s", none⟩]
    baseSha := str "b"
    headSha := str "h"
    baseTree := []
    comments := [] }

/-- The modified file built for `envC5`. -/
def fileC5 : ModifiedFile :=
  { sha := str "s", originSha := noneStr, diff := [],
    position := JsNum.nan, filename := str "a" }

/-- Witness for C5 at a concrete binary file. -/
theorem claimC5_witness :
    (∀ p ∈ (getFileSummaries (fun _ => JsNum.nan) 1000
        (fun _ => CompletionResult.err) (fun _ => true) envC5
        ⟨str "o", str "r"⟩ 1).final.calls, p.1 ≠ fileC5.filename) ∧
    (∀ cc ∈ (getFileSummaries (fun _ => JsNum.nan) 1000
        (fun _ => CompletionResult.err) (fun _ => true) envC5
        ⟨str "o", str "r"⟩ 1).final.created, cc.path ≠ fileC5.filename) ∧
    recordGet fileC5.filename (getFileSummaries (fun _ => JsNum.nan) 1000
      (fun _ => CompletionResult.err) (fun _ => true) envC5
      ⟨str "o", str "r"⟩ 1).final.result = none :=
  claimC5 (fun _ => JsNum.nan) 1000 (fun _ => CompletionResult.err) (fun _ => true)
    envC5 ⟨str "o", str "r"⟩ 1 fileC5 (by decide) (by decide)

theorem processFiles_match_inv (ctx : Ctx) (k : Str) (c : NormComment) :
    ∀ (files : List ModifiedFile) (st : GenState),
      (∀ g ∈ files, g.filename = k →
        (g.diff = [] ∨ containsSub lfsMarker g.diff = true ∨
          ctx.aiComments.find?
            (fun cc => containsSub (expectedTitle g) cc.message) = some c)) →
      (∀ p ∈ (processFiles ctx files st).1.calls, p.1 = k → p ∈ st.calls) ∧
      (∀ cc ∈ (processFiles ctx files st).1.created, cc.path = k → cc ∈ st.created) ∧
      (recordGet k (processFiles ctx files st).1.result = recordGet k st.result ∨
        recordGet k (processFiles ctx files st).1.result =
          some (stripFirstLine c.message)) := by
  intro files
  induction files with
  | nil =>
    intro st _
    rw [processFiles_nil]
    exact ⟨fun p hp _ => hp, fun cc hc _ => hc, Or.inl rfl⟩
  | cons f rest ih =>
    intro st h
    have htail : ∀ g ∈ rest, g.filename = k →
        (g.diff = [] ∨ containsSub lfsMarker g.diff = true ∨
          ctx.aiComments.find?
            (fun cc => containsSub (expectedTitle g) cc.message) = some c) :=
      fun g hg => h g (List.mem_cons_of_mem _ hg)
    by_cases hd : f.diff = []
    · rw [processFiles_skip_empty ctx f rest st hd]
      exact ih st htail
    · cases hl : containsSub lfsMarker f.diff with
      | true =>
        rw [processFiles_skip_lfs ctx f rest st hd hl]
        exact ih st htail
      | false =>
        by_cases hfk : f.filename = k
        · have hfind : ctx.aiComments.find?
              (fun cc => containsSub (expectedTitle f) cc.message) = some c := by
            rcases h f (List.mem_cons_self _ _) hfk with hc | hc | hc
            · exact absurd hc hd
            · rw [hl] at hc; exact absurd hc Bool.false_ne_true
            · exact hc
          rw [processFiles_reuse ctx f rest st c hd hl hfind]
          obtain ⟨ih1, ih2, ih3⟩ := ih _ htail
          refine ⟨ih1, ih2, ?_⟩
          rcases ih3 with ih3 | ih3
          · right
            rw [ih3]
            dsimp only
            rw [hfk]
            exact recordGet_insert_self k _ st.result
          · right
            exact ih3
        · cases hfind : ctx.aiComments.find?
              (fun cc => containsSub (expectedTitle f) cc.message) with
          | some c' =>
            rw [processFiles_reuse ctx f rest st c' hd hl hfind]
            obtain ⟨ih1, ih2, ih3⟩ := ih _ htail
            refine ⟨ih1, ih2, ?_⟩
            rcases ih3 with ih3 | ih3
            · left
              rw [ih3]
              dsimp only
              exact recordGet_insert_ne k f.filename _ hfk st.result
            · right
              exact ih3
          | none =>
            cases hcr : ctx.create (mkReviewComment ctx.repo ctx.pull_number
                ctx.baseSha ctx.headSha f (getOpenAISummaryForFile ctx.maxLen
                  ctx.complete f.filename f.diff).1) with
            | true =>
              by_cases hcap : MAX_FILES_TO_SUMMARIZE ≤ st.summarizedFiles + 1
              · rw [processFiles_fresh_break ctx f rest st hd hl hfind hcr hcap]
                refine ⟨?_, ?_, ?_⟩
                · intro p hp hpk
                  rcases List.mem_append.mp hp with hp | hp
                  · exact hp
                  · have hfst := getOpenAISummary_calls_fst ctx.maxLen ctx.complete
                      f.filename f.diff p hp
                    exact absurd (hfst.symm.trans hpk) hfk
                · intro cc hc hck
                  rcases List.mem_append.mp hc with hc | hc
                  · exact hc
                  · rw [List.mem_singleton] at hc
                    subst hc
                    exact absurd hck hfk
                · left
                  exact recordGet_insert_ne k f.filename _ hfk st.result
              · rw [processFiles_fresh_cont ctx f rest st hd hl hfind hcr hcap]
                obtain ⟨ih1, ih2, ih3⟩ := ih _ htail
                refine ⟨?_, ?_, ?_⟩
                · intro p hp hpk
                  have hmem := ih1 p hp hpk
                  rcases List.mem_append.mp hmem with hh | hh
                  · exact hh
                  · have hfst := getOpenAISummary_calls_fst ctx.maxLen ctx.complete
                      f.filename f.diff p hh
                    exact absurd (hfst.symm.trans hpk) hfk
                · intro cc hc hck
                  have hmem := ih2 cc hc hck
                  rcases List.mem_append.mp hmem with hh | hh
                  · exact hh
                  · rw [List.mem_singleton] at hh
                    subst hh
                    exact absurd hck hfk
                · rcases ih3 with ih3 | ih3
                  · left
                    rw [ih3]
                    dsimp only
                    exact recordGet_insert_ne k f.filename _ hfk st.result
                  · right
                    exact ih3
            | false =>
              rw [processFiles_fresh_fail ctx f rest st hd hl hfind hcr]
              refine ⟨?_, ?_, ?_⟩
              · intro p hp hpk
                rcases List.mem_append.mp hp with hp | hp
                · exact hp
                · have hfst := getOpenAISummary_calls_fst ctx.maxLen ctx.complete
                    f.filename f.diff p hp
                  exact absurd (hfst.symm.trans hpk) hfk
              · intro cc hc _
                exact hc
              · left
                exact recordGet_insert_ne k f.filename _ hfk st.result

/-! ## Claim C1: identity matching and summary reuse -/

/-- Claim C1 as amended: for a modified file whose expected title occurs
in some bot comment (`find?` returning the first such comment), no
completion-service call is made for that file and no review comment is
created for it; and if the result mapping has an entry for the file at
all, the entry is that first matching comment's normalized body with its
title line removed.  (A matching file that is skipped as binary/LFS, or
that the loop never reaches because of the cap or an aborted run, gets no
entry; see the counterexample.) -/
theorem claimC1 (jsNumber : Str → JsNum) (maxLen : Nat)
    (complete : Str → CompletionResult) (create : CreatedComment → Bool)
    (env : Env) (repo : Repo) (pull_number : Nat) (f : ModifiedFile)
    (c : NormComment)
    (hf : f ∈ recordValues (buildModifiedFiles jsNumber env.baseTree env.filesChanged))
    (hfind : (aiComments env).find?
      (fun cc => containsSub (expectedTitle f) cc.message) = some c) :
    (∀ p ∈ (getFileSummaries jsNumber maxLen complete create env repo
        pull_number).final.calls, p.1 ≠ f.filename) ∧
    (∀ cc ∈ (getFileSummaries jsNumber maxLen complete create env repo
        pull_number).final.created, cc.path ≠ f.filename) ∧
    (∀ v, recordGet f.filename (getFileSummaries jsNumber maxLen complete create
        env repo pull_number).final.result = some v →
      v = stripFirstLine c.message) := by
  rw [getFileSummaries_final]
  obtain ⟨inv1, inv2, inv3⟩ := processFiles_match_inv
    { repo := repo, pull_number := pull_number, baseSha := env.baseSha,
      headSha := env.headSha, aiComments := aiComments env, maxLen := maxLen,
      complete := complete, create := create }
    f.filename c
    (recordValues (buildModifiedFiles jsNumber env.baseTree env.filesChanged))
    { result := [], summarizedFiles := 0, created := [], calls := [] }
    (by
      intro g hg hgk
      have hgf : g = f := values_filename_inj jsNumber env.baseTree env.filesChanged
        g f hg hf hgk
      right; right
      rw [hgf]
      exact hfind)
  refine ⟨?_, ?_, ?_⟩
  · intro p hp hpk
    exact absurd (inv1 p hp hpk) (List.not_mem_nil p)
  · intro cc hc hck
    exact absurd (inv2 cc hc hck) (List.not_mem_nil cc)
  · intro v hv
    rcases inv3 with h3 | h3
    · rw [h3] at hv
      exact absurd hv (by simp [recordGet])
    · rw [h3] at hv
      injection hv with hv
      exact hv.symm

/-- Concrete environment for the C1 counterexample: a binary file (no
patch, so empty diff) whose identity pair is encoded in an existing bot
comment. -/
def envC1 : Env :=
  { filesChanged := [⟨str "a", str "1", none⟩]
    baseSha := str "b"
    headSha := str "h"
    baseTree := []
    comments := [⟨some (str "GPT summary of None - 1:\nreused body"), 5⟩] }

/-- The modified file built for `envC1`. -/
def fileC1 : ModifiedFile :=
  { sha := str "1", originSha := noneStr, diff := [],
    position := JsNum.nan, filename := str "a" }

/-- Counterexample to claim C1 as stated: the file's identity pair is
encoded in a bot comment, yet the result mapping has no entry for the
file at all (its diff is empty, so the skip rule fires before the reuse
check), contradicting the claimed equality between the mapping entry and
the comment body minus its title. -/
theorem claimC1_cex :
    (aiComments envC1).find?
        (fun cc => containsSub (expectedTitle fileC1) cc.message) =
      some ⟨str "GPT summary of None - 1:\nreused body", 5⟩ ∧
    fileC1 ∈ recordValues (buildModifiedFiles (fun _ => JsNum.nan) envC1.baseTree
      envC1.filesChanged) ∧
    recordGet fileC1.filename (getFileSummaries (fun _ => JsNum.nan) 1000
      (fun _ => CompletionResult.err) (fun _ => true) envC1
      ⟨str "o", str "r"⟩ 1).final.result = none := by
  refine ⟨by decide, by decide, by decide⟩

/-- Concrete environment for the C1 witness: the same matching comment,
but the file has a real diff, so the reuse branch runs. -/
def envC1b : Env :=
  { filesChanged := [⟨str "a", str "1", some (str "x")⟩]
    baseSha := str "b"
    headSha := str "h"
    baseTree := []
    comments := [⟨some (str "GPT summary of None - 1:\nreused body"), 5⟩] }

/-- The modified file built for `envC1b`. -/
def fileC1b : ModifiedFile :=
  { sha := str "1", originSha := noneStr, diff := str "x",
    position := JsNum.nan, filename := str "a" }

/-- Witness for C1 at a concrete reused file. -/
theorem claimC1_witness :
    (∀ p ∈ (getFileSummaries (fun _ => JsNum.nan) 1000
        (fun _ => CompletionResult.err) (fun _ => true) envC1b
        ⟨str "o", str "r"⟩ 1).final.calls, p.1 ≠ fileC1b.filename) ∧
    (∀ cc ∈ (getFileSummaries (fun _ => JsNum.nan) 1000
        (fun _ => CompletionResult.err) (fun _ => true) envC1b
        ⟨str "o", str "r"⟩ 1).final.created, cc.path ≠ fileC1b.filename) ∧
    (∀ v, recordGet fileC1b.filename (getFileSummaries (fun _ => JsNum.nan) 1000
        (fun _ => CompletionResult.err) (fun _ => true) envC1b
        ⟨str "o", str "r"⟩ 1).final.result = some v →
      v = stripFirstLine (str "GPT summary of None - 1:\nreused body")) :=
  claimC1 (fun _ => JsNum.nan) 1000 (fun _ => CompletionResult.err) (fun _ => true)
    envC1b ⟨str "o", str "r"⟩ 1 fileC1b
    ⟨str "GPT summary of None - 1:\nreused body", 5⟩ (by decide) (by decide)

/-! ## Claim C6: side and line placement of new comments -/

theorem processFiles_created_from (ctx : Ctx) :
    ∀ (files : List ModifiedFile) (st : GenState) (cc : CreatedComment),
      cc ∈ (processFiles ctx files st).1.created →
      cc ∈ st.created ∨ ∃ f, f ∈ files ∧ ∃ sm,
        cc = mkReviewComment ctx.repo ctx.pull_number ctx.baseSha ctx.headSha f sm := by
  intro files
  induction files with
  | nil =>
    intro st cc hc
    rw [processFiles_nil] at hc
    exact Or.inl hc
  | cons f rest ih =>
    intro st cc hc
    by_cases hd : f.diff = []
    · rw [processFiles_skip_empty ctx f rest st hd] at hc
      rcases ih st cc hc with hh | ⟨g, hg, sm, hsm⟩
      · exact Or.inl hh
      · exact Or.inr ⟨g, List.mem_cons_of_mem _ hg, sm, hsm⟩
    · cases hl : containsSub lfsMarker f.diff with
      | true =>
        rw [processFiles_skip_lfs ctx f rest st hd hl] at hc
        rcases ih st cc hc with hh | ⟨g, hg, sm, hsm⟩
        · exact Or.inl hh
        · exact Or.inr ⟨g, List.mem_cons_of_mem _ hg, sm, hsm⟩
      | false =>
        cases hfind : ctx.aiComments.find?
            (fun c => containsSub (expectedTitle f) c.message) with
        | some c =>
          rw [processFiles_reuse ctx f rest st c hd hl hfind] at hc
          rcases ih _ cc hc with hh | ⟨g, hg, sm, hsm⟩
          · exact Or.inl hh
          · exact Or.inr ⟨g, List.mem_cons_of_mem _ hg, sm, hsm⟩
        | none =>
          cases hcr : ctx.create (mkReviewComment ctx.repo ctx.pull_number
              ctx.baseSha ctx.headSha f (getOpenAISummaryForFile ctx.maxLen
                ctx.complete f.filename f.diff).1) with
          | true =>
            by_cases hcap : MAX_FILES_TO_SUMMARIZE ≤ st.summarizedFiles + 1
            · rw [processFiles_fresh_break ctx f rest st hd hl hfind hcr hcap] at hc
              rcases List.mem_append.mp hc with hh | hh
              · exact Or.inl hh
              · rw [List.mem_singleton] at hh
                exact Or.inr ⟨f, List.mem_cons_self _ _, _, hh⟩
            · rw [processFiles_fresh_cont ctx f rest st hd hl hfind hcr hcap] at hc
              rcases ih _ cc hc with hh | ⟨g, hg, sm, hsm⟩
              · rcases List.mem_append.mp hh with hh2 | hh2
                · exact Or.inl hh2
                · rw [List.mem_singleton] at hh2
                  exact Or.inr ⟨f, List.mem_cons_self _ _, _, hh2⟩
              · exact Or.inr ⟨g, List.mem_cons_of_mem _ hg, sm, hsm⟩
          | false =>
            rw [processFiles_fresh_fail ctx f rest st hd hl hfind hcr] at hc
            exact Or.inl hc

theorem lineFor_pos (f : ModifiedFile) (hfin : f.position.isFinite = true)
    (hgt : f.position.gtZero = true) : lineFor f = f.position := by
  unfold lineFor
  rw [if_pos hfin, if_pos hgt]

theorem lineFor_one (f : ModifiedFile)
    (h : ¬(f.position.isFinite = true ∧ f.position.gtZero = true)) :
    lineFor f = JsNum.fin 1 := by
  unfold lineFor
  by_cases hfin : f.position.isFinite = true
  · rw [if_pos hfin, if_neg (fun hgt => h ⟨hfin, hgt⟩)]
  · rw [if_neg hfin]

theorem sideFor_iff (f : ModifiedFile) :
    sideFor f = str "RIGHT" ↔
      (f.position.gtZero = true ∨ f.originSha = noneStr) := by
  unfold sideFor
  by_cases h : f.position.gtZero = true ∨ f.originSha = noneStr
  · rw [if_pos h]
    exact ⟨fun _ => h, fun _ => rfl⟩
  · rw [if_neg h]
    constructor
    · intro he
      exact absurd he (by decide)
    · intro hh
      exact absurd hh h

theorem sideFor_left (f : ModifiedFile)
    (h : ¬(f.position.gtZero = true ∨ f.originSha = noneStr)) :
    sideFor f = str "LEFT" := by
  unfold sideFor
  rw [if_neg h]

/-- Claim C6: every review comment created by `getFileSummaries` is
anchored for some modified file at line equal to the file's parsed
position when that position is finite and positive, else line 1; and its
side is `"RIGHT"` exactly when the position is positive or the file is
new (`originSha = "None"`), else `"LEFT"`. -/
theorem claimC6 (jsNumber : Str → JsNum) (maxLen : Nat)
    (complete : Str → CompletionResult) (create : CreatedComment → Bool)
    (env : Env) (repo : Repo) (pull_number : Nat) (cc : CreatedComment)
    (hcc : cc ∈ (getFileSummaries jsNumber maxLen complete create env repo
      pull_number).final.created) :
    ∃ f, f ∈ recordValues (buildModifiedFiles jsNumber env.baseTree
        env.filesChanged) ∧
      cc.path = f.filename ∧
      (f.position.isFinite = true ∧ f.position.gtZero = true →
        cc.line = f.position) ∧
      (¬(f.position.isFinite = true ∧ f.position.gtZero = true) →
        cc.line = JsNum.fin 1) ∧
      (cc.side = str "RIGHT" ↔
        (f.position.gtZero = true ∨ f.originSha = noneStr)) ∧
      (¬(f.position.gtZero = true ∨ f.originSha = noneStr) →
        cc.side = str "LEFT") := by
  rw [getFileSummaries_final] at hcc
  rcases processFiles_created_from _ _ _ cc hcc with hh | ⟨f, hf, sm, hsm⟩
  · exact absurd hh (List.not_mem_nil cc)
  · refine ⟨f, hf, ?_, ?_, ?_, ?_, ?_⟩
    · rw [hsm]; rfl
    · intro ⟨hfin, hgt⟩
      rw [hsm]
      show lineFor f = f.position
      exact lineFor_pos f hfin hgt
    · intro h
      rw [hsm]
      show lineFor f = JsNum.fin 1
      exact lineFor_one f h
    · rw [hsm]
      show sideFor f = str "RIGHT" ↔ _
      exact sideFor_iff f
    · intro h
      rw [hsm]
      show sideFor f = str "LEFT"
      exact sideFor_left f h

/-- Concrete environment for the C6 witness: one fresh file whose diff
parses to position 5. -/
def envC6 : Env :=
  { filesChanged := [⟨str "a", str "1", some (str "@@ -1,3 +5,4 @@")⟩]
    baseSha := str "b"
    headSha := str "h"
    baseTree := []
    comments := [] }

/-- A `Number()` oracle for the C6 witness. -/
def jsNumC6 : Str → JsNum := fun s => if s = str "5" then JsNum.fin 5 else JsNum.nan

/-- The modified file built for `envC6`. -/
def fileC6 : ModifiedFile :=
  { sha := str "1", originSha := noneStr, diff := str "@@ -1,3 +5,4 @@",
    position := JsNum.fin 5, filename := str "a" }

set_option maxRecDepth 100000 in
/-- Witness for C6 at the concrete comment created for `envC6`. -/
theorem claimC6_witness :
    ∃ f, f ∈ recordValues (buildModifiedFiles jsNumC6 envC6.baseTree
        envC6.filesChanged) ∧
      (mkReviewComment ⟨str "o", str "r"⟩ 1 (str "b") (str "h") fileC6
        sentinel).path = f.filename ∧
      (f.position.isFinite = true ∧ f.position.gtZero = true →
        (mkReviewComment ⟨str "o", str "r"⟩ 1 (str "b") (str "h") fileC6
          sentinel).line = f.position) ∧
      (¬(f.position.isFinite = true ∧ f.position.gtZero = true) →
        (mkReviewComment ⟨str "o", str "r"⟩ 1 (str "b") (str "h") fileC6
          sentinel).line = JsNum.fin 1) ∧
      ((mkReviewComment ⟨str "o", str "r"⟩ 1 (str "b") (str "h") fileC6
          sentinel).side = str "RIGHT" ↔
        (f.position.gtZero = true ∨ f.originSha = noneStr)) ∧
      (¬(f.position.gtZero = true ∨ f.originSha = noneStr) →
        (mkReviewComment ⟨str "o", str "r"⟩ 1 (str "b") (str "h") fileC6
          sentinel).side = str "LEFT") :=
  claimC6 jsNumC6 3 (fun _ => CompletionResult.err) (fun _ => true) envC6
    ⟨str "o", str "r"⟩ 1
    (mkReviewComment ⟨str "o", str "r"⟩ 1 (str "b") (str "h") fileC6 sentinel)
    (by decide)

/-! ## Claim C3: the cap on fresh summaries -/

/-- A modified file needs a fresh summary: non-empty diff, no git-lfs
marker, and no existing bot comment encoding its identity pair. -/
def needsFresh (ai : List NormComment) (f : ModifiedFile) : Bool :=
  !decide (f.diff = []) && !containsSub lfsMarker f.diff &&
    (ai.find? (fun c => containsSub (expectedTitle f) c.message)).isNone

theorem needsFresh_spec (ai : List NormComment) (f : ModifiedFile)
    (h : needsFresh ai f = true) :
    f.diff ≠ [] ∧ containsSub lfsMarker f.diff = false ∧
      ai.find? (fun c => containsSub (expectedTitle f) c.message) = none := by
  unfold needsFresh at h
  simp only [Bool.and_eq_true, Bool.not_eq_true', decide_eq_false_iff_not,
    Option.isNone_iff_eq_none] at h
  exact ⟨h.1.1, h.1.2, h.2⟩

theorem needsFresh_false_empty (ai : List NormComment) (f : ModifiedFile)
    (h : f.diff = []) : needsFresh ai f = false := by
  unfold needsFresh
  simp [h]

theorem needsFresh_false_lfs (ai : List NormComment) (f : ModifiedFile)
    (h : containsSub lfsMarker f.diff = true) : needsFresh ai f = false := by
  unfold needsFresh
  simp [h]

theorem needsFresh_false_found (ai : List NormComment) (f : ModifiedFile)
    (c : NormComment)
    (h : ai.find? (fun c => containsSub (expectedTitle f) c.message) = some c) :
    needsFresh ai f = false := by
  unfold needsFresh
  simp [h]

theorem needsFresh_true (ai : List NormComment) (f : ModifiedFile)
    (h1 : f.diff ≠ []) (h2 : containsSub lfsMarker f.diff = false)
    (h3 : ai.find? (fun c => containsSub (expectedTitle f) c.message) = none) :
    needsFresh ai f = true := by
  unfold needsFresh
  simp [h1, h2, h3]

theorem processFiles_created_count (ctx : Ctx)
    (hcr : ∀ cc, ctx.create cc = true) :
    ∀ (files : List ModifiedFile) (st : GenState),
      (processFiles ctx files st).1.created.length + st.summarizedFiles =
        st.created.length + (processFiles ctx files st).1.summarizedFiles := by
  intro files
  induction files with
  | nil => intro st; rw [processFiles_nil]
  | cons f rest ih =>
    intro st
    by_cases hd : f.diff = []
    · rw [processFiles_skip_empty ctx f rest st hd]
      exact ih st
    · cases hl : containsSub lfsMarker f.diff with
      | true =>
        rw [processFiles_skip_lfs ctx f rest st hd hl]
        exact ih st
      | false =>
        cases hfind : ctx.aiComments.find?
            (fun c => containsSub (expectedTitle f) c.message) with
        | some c =>
          rw [processFiles_reuse ctx f rest st c hd hl hfind]
          exact ih _
        | none =>
          have hcr' := hcr (mkReviewComment ctx.repo ctx.pull_number ctx.baseSha
            ctx.headSha f (getOpenAISummaryForFile ctx.maxLen ctx.complete
              f.filename f.diff).1)
          by_cases hcap : MAX_FILES_TO_SUMMARIZE ≤ st.summarizedFiles + 1
          · rw [processFiles_fresh_break ctx f rest st hd hl hfind hcr' hcap]
            simp only [List.length_append, List.length_singleton]
            omega
          · rw [processFiles_fresh_cont ctx f rest st hd hl hfind hcr' hcap]
            have h2 := ih (GenState.mk
              (recordInsert f.filename (getOpenAISummaryForFile ctx.maxLen
                ctx.complete f.filename f.diff).1 st.result)
              (st.summarizedFiles + 1)
              (st.created ++ [mkReviewComment ctx.repo ctx.pull_number ctx.baseSha
                ctx.headSha f (getOpenAISummaryForFile ctx.maxLen ctx.complete
                  f.filename f.diff).1])
              (st.calls ++ (getOpenAISummaryForFile ctx.maxLen ctx.complete
                f.filename f.diff).2))
            simp only [List.length_append, List.length_singleton] at h2
            omega

theorem processFiles_result_keys (ctx : Ctx) :
    ∀ (files : List ModifiedFile) (st : GenState) (k : Str),
      recordGet k (processFiles ctx files st).1.result ≠ none →
      recordGet k st.result ≠ none ∨ k ∈ files.map ModifiedFile.filename := by
  intro files
  induction files with
  | nil =>
    intro st k h
    rw [processFiles_nil] at h
    exact Or.inl h
  | cons f rest ih =>
    intro st k h
    by_cases hd : f.diff = []
    · rw [processFiles_skip_empty ctx f rest st hd] at h
      rcases ih st k h with hh | hh
      · exact Or.inl hh
      · exact Or.inr (List.mem_cons_of_mem _ hh)
    · cases hl : containsSub lfsMarker f.diff with
      | true =>
        rw [processFiles_skip_lfs ctx f rest st hd hl] at h
        rcases ih st k h with hh | hh
        · exact Or.inl hh
        · exact Or.inr (List.mem_cons_of_mem _ hh)
      | false =>
        by_cases hfk : k = f.filename
        · exact Or.inr (by rw [List.map_cons, hfk]; exact List.mem_cons_self _ _)
        · cases hfind : ctx.aiComments.find?
              (fun c => containsSub (expectedTitle f) c.message) with
          | some c =>
            rw [processFiles_reuse ctx f rest st c hd hl hfind] at h
            rcases ih _ k h with hh | hh
            · dsimp only at hh
              rw [recordGet_insert_ne k f.filename _
                (fun he => hfk he.symm) st.result] at hh
              exact Or.inl hh
            · exact Or.inr (List.mem_cons_of_mem _ hh)
          | none =>
            cases hcr : ctx.create (mkReviewComment ctx.repo ctx.pull_number
                ctx.baseSha ctx.headSha f (getOpenAISummaryForFile ctx.maxLen
                  ctx.complete f.filename f.diff).1) with
            | true =>
              by_cases hcap : MAX_FILES_TO_SUMMARIZE ≤ st.summarizedFiles + 1
              · rw [processFiles_fresh_break ctx f rest st hd hl hfind hcr hcap] at h
                dsimp only at h
                rw [recordGet_insert_ne k f.filename _
                  (fun he => hfk he.symm) st.result] at h
                exact Or.inl h
              · rw [processFiles_fresh_cont ctx f rest st hd hl hfind hcr hcap] at h
                rcases ih _ k h with hh | hh
                · dsimp only at hh
                  rw [recordGet_insert_ne k f.filename _
                    (fun he => hfk he.symm) st.result] at hh
                  exact Or.inl hh
                · exact Or.inr (List.mem_cons_of_mem _ hh)
            | false =>
              rw [processFiles_fresh_fail ctx f rest st hd hl hfind hcr] at h
              dsimp only at h
              rw [recordGet_insert_ne k f.filename _
                (fun he => hfk he.symm) st.result] at h
              exact Or.inl h

theorem filter_split {α : Type} (p : α → Bool) :
    ∀ (l : List α) (n : Nat), n < (l.filter p).length →
      ∃ l1 g l2, l = l1 ++ g :: l2 ∧ p g = true ∧ (l1.filter p).length = n := by
  intro l
  induction l with
  | nil => intro n h; simp at h
  | cons a rest ih =>
    intro n h
    cases hp : p a with
    | true =>
      cases n with
      | zero =>
        exact ⟨[], a, rest, rfl, hp, rfl⟩
      | succ n' =>
        rw [List.filter_cons, if_pos (by rw [hp])] at h
        simp only [List.length_cons] at h
        obtain ⟨l1, g, l2, hsplit, hg, hlen⟩ := ih n' (by omega)
        refine ⟨a :: l1, g, l2, by rw [hsplit, List.cons_append], hg, ?_⟩
        rw [List.filter_cons, if_pos (by rw [hp])]
        simp only [List.length_cons, hlen]
    | false =>
      rw [List.filter_cons, if_neg (by rw [hp]; exact Bool.false_ne_true)] at h
      obtain ⟨l1, g, l2, hsplit, hg, hlen⟩ := ih n h
      refine ⟨a :: l1, g, l2, by rw [hsplit, List.cons_append], hg, ?_⟩
      rw [List.filter_cons, if_neg (by rw [hp]; exact Bool.false_ne_true), hlen]

theorem processFiles_cap_truncate (ctx : Ctx)
    (hcr : ∀ cc, ctx.create cc = true) :
    ∀ (l1 : List ModifiedFile) (g : ModifiedFile) (l2 : List ModifiedFile)
      (st : GenState),
      needsFresh ctx.aiComments g = true →
      st.summarizedFiles + (l1.filter (needsFresh ctx.aiComments)).length + 1 =
        MAX_FILES_TO_SUMMARIZE →
      processFiles ctx (l1 ++ g :: l2) st = processFiles ctx (l1 ++ [g]) st ∧
      (processFiles ctx (l1 ++ [g]) st).1.summarizedFiles =
        MAX_FILES_TO_SUMMARIZE ∧
      (processFiles ctx (l1 ++ [g]) st).2 = false := by
  intro l1
  induction l1 with
  | nil =>
    intro g l2 st hg hsum
    obtain ⟨hd, hl, hfind⟩ := needsFresh_spec ctx.aiComments g hg
    have hcr' := hcr (mkReviewComment ctx.repo ctx.pull_number ctx.baseSha
      ctx.headSha g (getOpenAISummaryForFile ctx.maxLen ctx.complete
        g.filename g.diff).1)
    simp only [List.filter_nil, List.length_nil] at hsum
    have hcap : MAX_FILES_TO_SUMMARIZE ≤ st.summarizedFiles + 1 := by omega
    simp only [List.nil_append]
    rw [processFiles_fresh_break ctx g l2 st hd hl hfind hcr' hcap,
      processFiles_fresh_break ctx g [] st hd hl hfind hcr' hcap]
    exact ⟨rfl, by dsimp only; omega, rfl⟩
  | cons f l1' ih =>
    intro g l2 st hg hsum
    simp only [List.cons_append]
    by_cases hd : f.diff = []
    · rw [processFiles_skip_empty ctx f _ st hd,
        processFiles_skip_empty ctx f _ st hd]
      refine ih g l2 st hg ?_
      rw [List.filter_cons, if_neg (by
        rw [needsFresh_false_empty ctx.aiComments f hd]
        exact Bool.false_ne_true)] at hsum
      exact hsum
    · cases hl : containsSub lfsMarker f.diff with
      | true =>
        rw [processFiles_skip_lfs ctx f _ st hd hl,
          processFiles_skip_lfs ctx f _ st hd hl]
        refine ih g l2 st hg ?_
        rw [List.filter_cons, if_neg (by
          rw [needsFresh_false_lfs ctx.aiComments f hl]
          exact Bool.false_ne_true)] at hsum
        exact hsum
      | false =>
        cases hfind : ctx.aiComments.find?
            (fun c => containsSub (expectedTitle f) c.message) with
        | some c =>
          rw [processFiles_reuse ctx f _ st c hd hl hfind,
            processFiles_reuse ctx f _ st c hd hl hfind]
          refine ih g l2 _ hg ?_
          rw [List.filter_cons, if_neg (by
            rw [needsFresh_false_found ctx.aiComments f c hfind]
            exact Bool.false_ne_true)] at hsum
          exact hsum
        | none =>
          have hcr' := hcr (mkReviewComment ctx.repo ctx.pull_number ctx.baseSha
            ctx.headSha f (getOpenAISummaryForFile ctx.maxLen ctx.complete
              f.filename f.diff).1)
          have hfr : needsFresh ctx.aiComments f = true :=
            needsFresh_true ctx.aiComments f hd hl hfind
          rw [List.filter_cons, if_pos (by rw [hfr])] at hsum
          simp only [List.length_cons] at hsum
          have hcap : ¬(MAX_FILES_TO_SUMMARIZE ≤ st.summarizedFiles + 1) := by
            omega
          rw [processFiles_fresh_cont ctx f _ st hd hl hfind hcr' hcap,
            processFiles_fresh_cont ctx f _ st hd hl hfind hcr' hcap]
          refine ih g l2 _ hg ?_
          dsimp only
          omega

/-- Claim C3 (assuming every `createReviewComment` call succeeds): when
more than `MAX_FILES_TO_SUMMARIZE` (20) modified files need a fresh
summary, exactly 20 new review comments are created in one invocation,
and every file after the 20th fresh-summarized file in record order is
absent from the result mapping. -/
theorem claimC3 (jsNumber : Str → JsNum) (maxLen : Nat)
    (complete : Str → CompletionResult) (create : CreatedComment → Bool)
    (env : Env) (repo : Repo) (pull_number : Nat)
    (hcr : ∀ cc, create cc = true)
    (hcount : MAX_FILES_TO_SUMMARIZE <
      ((recordValues (buildModifiedFiles jsNumber env.baseTree
        env.filesChanged)).filter (needsFresh (aiComments env))).length) :
    (getFileSummaries jsNumber maxLen complete create env repo
        pull_number).final.created.length = MAX_FILES_TO_SUMMARIZE ∧
    (∀ l1 g l2,
      recordValues (buildModifiedFiles jsNumber env.baseTree env.filesChanged) =
        l1 ++ g :: l2 →
      needsFresh (aiComments env) g = true →
      (l1.filter (needsFresh (aiComments env))).length =
        MAX_FILES_TO_SUMMARIZE - 1 →
      ∀ f ∈ l2, recordGet f.filename (getFileSummaries jsNumber maxLen complete
        create env repo pull_number).final.result = none) := by
  have hM : MAX_FILES_TO_SUMMARIZE = 20 := rfl
  constructor
  · rw [getFileSummaries_final]
    obtain ⟨l1, g, l2, hsplit, hg, hlen⟩ := filter_split
      (needsFresh (aiComments env))
      (recordValues (buildModifiedFiles jsNumber env.baseTree env.filesChanged))
      (MAX_FILES_TO_SUMMARIZE - 1) (by omega)
    have htr := processFiles_cap_truncate
      { repo := repo, pull_number := pull_number, baseSha := env.baseSha,
        headSha := env.headSha, aiComments := aiComments env, maxLen := maxLen,
        complete := complete, create := create }
      hcr l1 g l2 { result := [], summarizedFiles := 0, created := [], calls := [] }
      hg (by dsimp only; omega)
    rw [hsplit, htr.1]
    have hcnt := processFiles_created_count
      { repo := repo, pull_number := pull_number, baseSha := env.baseSha,
        headSha := env.headSha, aiComments := aiComments env, maxLen := maxLen,
        complete := complete, create := create }
      hcr (l1 ++ [g])
      { result := [], summarizedFiles := 0, created := [], calls := [] }
    have hsum := htr.2.1
    dsimp only at hcnt hsum
    simp only [List.length_nil] at hcnt
    omega
  · intro l1 g l2 hsplit hg hlen f hf
    rw [getFileSummaries_final]
    have htr := processFiles_cap_truncate
      { repo := repo, pull_number := pull_number, baseSha := env.baseSha,
        headSha := env.headSha, aiComments := aiComments env, maxLen := maxLen,
        complete := complete, create := create }
      hcr l1 g l2 { result := [], summarizedFiles := 0, created := [], calls := [] }
      hg (by dsimp only; omega)
    rw [hsplit, htr.1]
    by_contra hne
    rcases processFiles_result_keys
      { repo := repo, pull_number := pull_number, baseSha := env.baseSha,
        headSha := env.headSha, aiComments := aiComments env, maxLen := maxLen,
        complete := complete, create := create }
      (l1 ++ [g]) { result := [], summarizedFiles := 0, created := [], calls := [] }
      f.filename hne with hh | hh
    · exact hh rfl
    · have hnd := values_filename_nodup jsNumber env.baseTree env.filesChanged
      rw [hsplit, List.append_cons, List.map_append] at hnd
      have hdisj := List.disjoint_of_nodup_append hnd
      exact hdisj hh (List.mem_map_of_mem ModifiedFile.filename hf)

/-- One changed file for the C3 witness environment. -/
def fcC3 (n : String) : FileChanged := ⟨str n, str "1", some (str "x")⟩

/-- The modified file the C3 witness environment builds for a name. -/
def mfC3 (n : String) : ModifiedFile :=
  { sha := str "1", originSha := noneStr, diff := str "x",
    position := JsNum.nan, filename := str n }

/-- Twenty-one changed files needing fresh summaries. -/
def envC3 : Env :=
  { filesChanged := [fcC3 "a", fcC3 "b", fcC3 "c", fcC3 "d", fcC3 "e",
      fcC3 "f", fcC3 "g", fcC3 "h", fcC3 "i", fcC3 "j", fcC3 "k", fcC3 "l",
      fcC3 "m", fcC3 "n", fcC3 "o", fcC3 "p", fcC3 "q", fcC3 "r", fcC3 "s",
      fcC3 "t", fcC3 "u"]
    baseSha := str "B"
    headSha := str "H"
    baseTree := []
    comments := [] }

set_option maxRecDepth 1000000 in
/-- Witness for C3: with 21 needy files, exactly 20 comments are created
and the 21st file has no result entry. -/
theorem claimC3_witness :
    (getFileSummaries (fun _ => JsNum.nan) 0 (fun _ => CompletionResult.err)
        (fun _ => true) envC3 ⟨str "O", str "R"⟩ 1).final.created.length =
      MAX_FILES_TO_SUMMARIZE ∧
    recordGet (mfC3 "u").filename (getFileSummaries (fun _ => JsNum.nan) 0
      (fun _ => CompletionResult.err) (fun _ => true) envC3
      ⟨str "O", str "R"⟩ 1).final.result = none :=
  ⟨(claimC3 (fun _ => JsNum.nan) 0 (fun _ => CompletionResult.err)
      (fun _ => true) envC3 ⟨str "O", str "R"⟩ 1 (fun _ => rfl) (by decide)).1,
    (claimC3 (fun _ => JsNum.nan) 0 (fun _ => CompletionResult.err)
      (fun _ => true) envC3 ⟨str "O", str "R"⟩ 1 (fun _ => rfl) (by decide)).2
      [mfC3 "a", mfC3 "b", mfC3 "c", mfC3 "d", mfC3 "e", mfC3 "f", mfC3 "g",
        mfC3 "h", mfC3 "i", mfC3 "j", mfC3 "k", mfC3 "l", mfC3 "m", mfC3 "n",
        mfC3 "o", mfC3 "p", mfC3 "q", mfC3 "r", mfC3 "s"]
      (mfC3 "t") [mfC3 "u"] (by decide) (by decide) (by decide)
      (mfC3 "u") (List.mem_singleton.mpr rfl)⟩

/-! ## Claim C4: link normalization of generated comment bodies

The round trip is proved for hygienic inputs: blob identifiers that are
40 lowercase-hex characters or the literal `"None"`, path/host components
free of the characters that can derail the lazy regex scan (`#`, `[`,
and the four ECMAScript line terminators `'\n'`, `'\r'`, U+2028,
U+2029), and summaries free of `[` and `#`.  A counterexample
shows the hygiene conditions are necessary: a filename containing a
`#`-plus-40-hex run makes the normalization capture the wrong identifier,
so the normalized body does not contain the raw title. -/

/-- A blob identifier as produced by the source-control service: forty
lowercase-hex characters, or the sentinel `"None"`. -/
def isSha (cap : Str) : Prop :=
  (cap.length = 40 ∧ cap.all isHex = true) ∨ cap = noneStr

/-- A string that cannot interfere with the link regex: free of `#`,
`[` and the four ECMAScript line terminators. -/
def linkClean (s : Str) : Prop :=
  ∀ c ∈ s, c ≠ '#' ∧ c ≠ '[' ∧ c ≠ '\n' ∧ c ≠ '\r' ∧ c ≠ '\u2028' ∧ c ≠ '\u2029'

theorem hex_char_ne (c : Char) (h : isHex c = true) :
    c ≠ '#' ∧ c ≠ '[' ∧ c ≠ '\n' ∧ c ≠ '\r' ∧ c ≠ '\u2028' ∧ c ≠ '\u2029' := by
  refine ⟨?_, ?_, ?_, ?_, ?_, ?_⟩ <;> (rintro rfl; exact absurd h (by decide))

theorem isSha_clean (cap : Str) (h : isSha cap) : linkClean cap := by
  rcases h with ⟨_, hall⟩ | rfl
  · intro c hc
    exact hex_char_ne c (List.all_eq_true.mp hall c hc)
  · show ∀ c ∈ noneStr, c ≠ '#' ∧ c ≠ '[' ∧ c ≠ '\n' ∧ c ≠ '\r' ∧ c ≠ '\u2028' ∧ c ≠ '\u2029'
    decide

theorem linkClean_append (a b : Str) (ha : linkClean a) (hb : linkClean b) :
    linkClean (a ++ b) := by
  intro c hc
  rcases List.mem_append.mp hc with h | h
  · exact ha c h
  · exact hb c h

theorem linkClean_take (s : Str) (n : Nat) (h : linkClean s) :
    linkClean (s.take n) :=
  fun c hc => h c (List.mem_of_mem_take hc)

theorem matchHead_not_bracket (c : Char) (xs : Str) (hc : c ≠ '[') :
    matchHead (c :: xs) = none := by
  show (if c = '[' then _ else none) = none
  rw [if_neg hc]

theorem matchAt_not_bracket (c : Char) (xs : Str) (hc : c ≠ '[') :
    matchAt (c :: xs) = none := by
  unfold matchAt
  rw [matchHead_not_bracket c xs hc]

theorem findMatch_append_left (t r : Str) (ht : ∀ c ∈ t, c ≠ '[') :
    findMatch (t ++ r) = findMatch r := by
  induction t with
  | nil => rfl
  | cons c t' ih =>
    rw [List.cons_append]
    show (match matchAt (c :: (t' ++ r)) with
      | some res => some res
      | none => findMatch (t' ++ r)) = findMatch r
    rw [matchAt_not_bracket c _ (ht c (List.mem_cons_self _ _))]
    exact ih (fun c hc => ht c (List.mem_cons_of_mem _ hc))

theorem findMatch_none_of_clean (s : Str) (hs : ∀ c ∈ s, c ≠ '[') :
    findMatch s = none := by
  have h := findMatch_append_left s [] hs
  rw [List.append_nil] at h
  exact h

theorem tryCapture_hex (cap t : Str) (hlen : cap.length = 40)
    (hall : cap.all isHex = true) :
    tryCapture (cap ++ ')' :: t) = some cap := by
  have htake : (cap ++ ')' :: t).take 40 = cap := List.take_left' hlen
  have hget : (cap ++ ')' :: t)[40]? = some ')' := by
    rw [List.getElem?_append_right (by omega)]
    rw [hlen]
    simp
  unfold tryCapture
  rw [if_pos ⟨by rw [htake, hlen], by rw [htake]; exact hall, hget⟩, htake]

theorem tryCapture_noneStr (t : Str) :
    tryCapture (noneStr ++ ')' :: t) = some noneStr := by
  have hfalse : ((noneStr ++ ')' :: t).take 40).all isHex = false := by
    show (('N' :: (str "one" ++ ')' :: t)).take 40).all isHex = false
    rw [List.take_succ_cons, List.all_cons]
    rw [show isHex 'N' = false from by decide, Bool.false_and]
  unfold tryCapture
  rw [if_neg (by
    rintro ⟨_, h2, _⟩
    rw [hfalse] at h2
    exact Bool.false_ne_true h2)]
  rw [if_pos (show (noneStr ++ ')' :: t).take 5 = str "None)" from rfl)]

theorem scanHash_clean_append (M r : Str)
    (hM : ∀ c ∈ M, c ≠ '#' ∧ c ≠ '\n' ∧ c ≠ '\r' ∧ c ≠ '\u2028' ∧ c ≠ '\u2029') :
    scanHash (M ++ r) = (scanHash r).map (fun p => (M ++ p.1, p.2)) := by
  induction M with
  | nil =>
    cases h : scanHash r with
    | none => simp [h]
    | some p => simp [h]
  | cons c M' ih =>
    obtain ⟨hc1, hc2, hc3, hc4, hc5⟩ := hM c (List.mem_cons_self _ _)
    rw [List.cons_append]
    show (if c = '#' then _
      else if c = '\n' ∨ c = '\r' ∨ c = '\u2028' ∨ c = '\u2029' then none
      else _) = _
    rw [if_neg hc1, if_neg (by
      rintro (h | h | h | h)
      exact hc2 h
      exact hc3 h
      exact hc4 h
      exact hc5 h)]
    rw [ih (fun c hc => hM c (List.mem_cons_of_mem _ hc))]
    cases h : scanHash r with
    | none => rfl
    | some p => rfl

theorem scanHash_at (t cap : Str) (h : tryCapture t = some cap) :
    scanHash ('#' :: t) = some ('#' :: (cap ++ [')']), cap) := by
  simp only [scanHash]
  rw [if_true, h]

theorem matchHead_link (short tail : Str) (hlen : short.length = 6)
    (hall : short.all isHex = true) :
    matchHead ('[' :: (short ++ (litURL ++ tail))) =
      some ('[' :: (short ++ litURL), tail) := by
  simp only [matchHead]
  rw [if_true]
  have htake : (short ++ (litURL ++ tail)).take 6 = short := List.take_left' hlen
  have hdrop : (short ++ (litURL ++ tail)).drop 6 = litURL ++ tail :=
    List.drop_left' hlen
  rw [if_pos ⟨by rw [htake, hlen], by rw [htake]; exact hall, by
    rw [hdrop]; exact List.take_left litURL tail⟩]
  rw [htake, hdrop, List.drop_left]

theorem matchHead_linkNone (tail : Str) :
    matchHead ('[' :: (noneStr ++ (litURL ++ tail))) =
      some ('[' :: (noneStr ++ litURL), tail) := by
  simp only [matchHead]
  rw [if_true]
  have hfalse : ((noneStr ++ (litURL ++ tail)).take 6).all isHex = false := by
    show (('N' :: (str "one" ++ (litURL ++ tail))).take 6).all isHex = false
    rw [List.take_succ_cons, List.all_cons]
    rw [show isHex 'N' = false from by decide, Bool.false_and]
  rw [if_neg (by
    rintro ⟨_, h2, _⟩
    rw [hfalse] at h2
    exact Bool.false_ne_true h2)]
  have htake : (noneStr ++ (litURL ++ tail)).take 4 = noneStr := rfl
  have hdrop : (noneStr ++ (litURL ++ tail)).drop 4 = litURL ++ tail := rfl
  rw [if_pos ⟨htake, by rw [hdrop]; exact List.take_left litURL tail⟩]
  rw [hdrop, List.drop_left]

/-- The markup link `[<cap6>](https://github.com/<M>#<cap>)` with middle
text `M` and captured identifier `cap` (`cap6` is `cap.slice(0, 6)`). -/
def linkStr (M cap : Str) : Str :=
  '[' :: (cap.take 6 ++ (litURL ++ (M ++ '#' :: (cap ++ [')']))))

theorem linkStr_append (M cap rest : Str) :
    linkStr M cap ++ rest =
      '[' :: (cap.take 6 ++ (litURL ++ (M ++ '#' :: (cap ++ ')' :: rest)))) := by
  simp only [linkStr, List.cons_append, List.append_assoc, List.singleton_append,
    List.nil_append]

theorem linkClean_no_hash (M : Str) (hM : linkClean M) :
    ∀ c ∈ M, c ≠ '#' ∧ c ≠ '\n' ∧ c ≠ '\r' ∧ c ≠ '\u2028' ∧ c ≠ '\u2029' := by
  intro c hc
  obtain ⟨h1, _, h3, h4, h5, h6⟩ := hM c hc
  exact ⟨h1, h3, h4, h5, h6⟩

theorem matchAt_comp (s hd rest m cap : Str)
    (h1 : matchHead s = some (hd, rest)) (h2 : scanHash rest = some (m, cap)) :
    matchAt s = some (hd ++ m, cap) := by
  simp only [matchAt, h1, h2]

theorem matchAt_link (M cap rest : Str) (hcap : isSha cap) (hM : linkClean M) :
    matchAt (linkStr M cap ++ rest) = some (linkStr M cap, cap) := by
  rw [linkStr_append]
  have hcapture : tryCapture (cap ++ ')' :: rest) = some cap := by
    rcases hcap with ⟨hlen, hall⟩ | rfl
    · exact tryCapture_hex cap rest hlen hall
    · exact tryCapture_noneStr rest
  have hscan : scanHash (M ++ '#' :: (cap ++ ')' :: rest)) =
      some (M ++ ('#' :: (cap ++ [')'])), cap) := by
    rw [scanHash_clean_append M _ (linkClean_no_hash M hM),
      scanHash_at _ _ hcapture]
    rfl
  have hgoal : ('[' :: (cap.take 6 ++ litURL)) ++ (M ++ ('#' :: (cap ++ [')']))) =
      linkStr M cap := by
    simp only [linkStr, List.cons_append, List.append_assoc]
  rcases hcap with ⟨hlen, hall⟩ | heq
  · have hlen6 : (cap.take 6).length = 6 := by
      rw [List.length_take]
      omega
    have hall6 : (cap.take 6).all isHex = true := by
      rw [List.all_eq_true] at hall ⊢
      exact fun c hc => hall c (List.mem_of_mem_take hc)
    rw [matchAt_comp _ _ _ _ _ (matchHead_link (cap.take 6) _ hlen6 hall6) hscan]
    rw [hgoal]
  · subst heq
    have htake : (noneStr : Str).take 6 = noneStr := rfl
    rw [matchAt_comp _ _ _ _ _ (by rw [htake]; exact matchHead_linkNone _) hscan]
    rw [← hgoal, htake]

theorem findMatch_of_matchAt (s : Str) (r : Str × Str) (h : matchAt s = some r) :
    findMatch s = some r := by
  cases s with
  | nil => exact absurd h (by simp [matchAt, matchHead])
  | cons c cs =>
    show (match matchAt (c :: cs) with
      | some res => some res
      | none => findMatch cs) = some r
    rw [h]

theorem findMatch_link (pre M cap rest : Str) (hpre : ∀ c ∈ pre, c ≠ '[')
    (hcap : isSha cap) (hM : linkClean M) :
    findMatch (pre ++ (linkStr M cap ++ rest)) = some (linkStr M cap, cap) := by
  rw [findMatch_append_left pre _ hpre]
  exact findMatch_of_matchAt _ _ (matchAt_link M cap rest hcap hM)

theorem replaceAll_no_occur (pat repl : Str) :
    ∀ s, ¬(pat <:+: s) → replaceAll pat repl s = s := by
  intro s
  induction s with
  | nil => intro _; exact replaceAll_nil pat repl
  | cons c rest ih =>
    intro h
    have hpre : ¬(isPrefixL pat (c :: rest) = true) := by
      intro hp
      exact h ((isPrefixL_iff pat (c :: rest)).mp hp).isInfix
    rw [replaceAll_neg pat repl c rest (by
      rintro ⟨_, hp⟩
      exact hpre hp)]
    rw [ih (fun hinf => h (List.infix_cons hinf))]

theorem not_infix_of_no_bracket (p' s : Str) (hs : ∀ c ∈ s, c ≠ '[') :
    ¬(('[' :: p') <:+: s) := by
  intro hinf
  exact hs '[' (hinf.subset (List.mem_cons_self _ _)) rfl

theorem replaceAll_left (p' repl t r : Str) (ht : ∀ c ∈ t, c ≠ '[') :
    replaceAll ('[' :: p') repl (t ++ r) = t ++ replaceAll ('[' :: p') repl r := by
  induction t with
  | nil => rfl
  | cons c t' ih =>
    rw [List.cons_append]
    rw [replaceAll_neg _ repl c (t' ++ r) (by
      rintro ⟨_, hp⟩
      have hc : c = '[' := by
        rcases (isPrefixL_iff _ _).mp hp with ⟨u, hu⟩
        have := congrArg (fun l => l.head?) hu
        simp only [List.cons_append, List.head?_cons] at this
        injection this with h'
        exact h'.symm
      exact ht c (List.mem_cons_self _ _) hc)]
    rw [ih (fun c hc => ht c (List.mem_cons_of_mem _ hc)), List.cons_append]

theorem replaceAll_head (pat repl r : Str) (hne : pat ≠ []) :
    replaceAll pat repl (pat ++ r) = repl ++ replaceAll pat repl r := by
  cases pat with
  | nil => exact absurd rfl hne
  | cons p ps =>
    rw [List.cons_append]
    rw [replaceAll_pos (p :: ps) repl p (ps ++ r) hne (by
      rw [isPrefixL_iff]
      exact ⟨r, by rw [List.cons_append]⟩)]
    congr 1
    have hlen : (p :: ps).length - 1 = ps.length := by simp
    rw [hlen, List.drop_left]

theorem prefix_hash_align :
    ∀ (A1 A2 B1 B2 : Str), '#' ∉ A1 → '#' ∉ A2 →
      (A1 ++ '#' :: B1) <+: (A2 ++ '#' :: B2) → A1 = A2 ∧ B1 <+: B2 := by
  intro A1
  induction A1 with
  | nil =>
    intro A2 B1 B2 _ hA2 hpre
    cases A2 with
    | nil =>
      obtain ⟨_, hp⟩ := List.cons_prefix_cons.mp hpre
      exact ⟨rfl, hp⟩
    | cons b A2' =>
      obtain ⟨heq, _⟩ := List.cons_prefix_cons.mp hpre
      refine absurd ?_ hA2
      rw [heq]
      exact List.mem_cons_self b A2'
  | cons a A1' ih =>
    intro A2 B1 B2 hA1 hA2 hpre
    cases A2 with
    | nil =>
      obtain ⟨heq, _⟩ := List.cons_prefix_cons.mp hpre
      refine absurd ?_ hA1
      rw [← heq]
      exact List.mem_cons_self a A1'
    | cons b A2' =>
      obtain ⟨heq, hp⟩ := List.cons_prefix_cons.mp hpre
      obtain ⟨h1, h2⟩ := ih A2' B1 B2
        (fun hm => hA1 (List.mem_cons_of_mem _ hm))
        (fun hm => hA2 (List.mem_cons_of_mem _ hm)) hp
      exact ⟨by rw [heq, h1], h2⟩

theorem cap_prefix_eq (cap1 cap2 t : Str) (h1 : isSha cap1) (h2 : isSha cap2)
    (hpre : (cap1 ++ [')']) <+: (cap2 ++ ')' :: t)) : cap1 = cap2 := by
  rcases h1 with ⟨hlen1, hall1⟩ | heq1
  · rcases h2 with ⟨hlen2, hall2⟩ | heq2
    · obtain ⟨u, hu⟩ := hpre
      have hc := congrArg (List.take 40) hu
      rw [List.append_assoc, List.take_left' hlen1, List.take_left' hlen2] at hc
      exact hc
    · subst heq2
      cases cap1 with
      | nil => simp at hlen1
      | cons c cs =>
        rw [List.cons_append] at hpre
        obtain ⟨heq, _⟩ := List.cons_prefix_cons.mp hpre
        have hhex : isHex c = true := by
          rw [List.all_cons] at hall1
          exact (Bool.and_eq_true _ _).mp hall1 |>.1
        rw [heq] at hhex
        exact absurd hhex (by decide)
  · subst heq1
    rcases h2 with ⟨hlen2, hall2⟩ | heq2
    · cases cap2 with
      | nil => simp at hlen2
      | cons c cs =>
        rw [List.cons_append] at hpre
        have hpre' : ('N' :: (str "one" ++ [')'])) <+: (c :: (cs ++ ')' :: t)) :=
          hpre
        obtain ⟨heq, _⟩ := List.cons_prefix_cons.mp hpre'
        have hhex : isHex c = true := by
          rw [List.all_cons] at hall2
          exact (Bool.and_eq_true _ _).mp hall2 |>.1
        rw [← heq] at hhex
        exact absurd hhex (by decide)
    · rw [heq2]

theorem bracket_align :
    ∀ (t u p r v : Str), '[' ∉ u → '[' ∉ v →
      t ++ ('[' :: p) ++ r = u ++ '[' :: v → t = u ∧ p ++ r = v := by
  intro t
  induction t with
  | nil =>
    intro u p r v hu hv heq
    cases u with
    | nil =>
      have heq2 : '[' :: (p ++ r) = '[' :: v := heq
      injection heq2 with _ h2
      exact ⟨rfl, h2⟩
    | cons b u' =>
      have heq2 : '[' :: (p ++ r) = b :: (u' ++ '[' :: v) := heq
      injection heq2 with h1 _
      refine absurd ?_ hu
      rw [h1]
      exact List.mem_cons_self b u'
  | cons a t' ih =>
    intro u p r v hu hv heq
    cases u with
    | nil =>
      have heq2 : a :: ((t' ++ '[' :: p) ++ r) = '[' :: v := heq
      injection heq2 with h1 h2
      exfalso
      apply hv
      rw [← h2]
      exact List.mem_append.mpr (Or.inl (List.mem_append.mpr
        (Or.inr (List.mem_cons_self _ _))))
    | cons b u' =>
      have heq2 : a :: ((t' ++ '[' :: p) ++ r) = b :: (u' ++ '[' :: v) := heq
      injection heq2 with h1 h2
      obtain ⟨ht, hp⟩ := ih u' p r v
        (fun hm => hu (List.mem_cons_of_mem _ hm)) hv h2
      exact ⟨by rw [h1, ht], hp⟩

theorem infix_unique_bracket (p u v : Str) (hu : '[' ∉ u) (hv : '[' ∉ v)
    (hinf : ('[' :: p) <:+: (u ++ '[' :: v)) : p <+: v := by
  obtain ⟨t, r, ht⟩ := hinf
  obtain ⟨_, hp⟩ := bracket_align t u p r v hu hv ht
  exact ⟨r, hp⟩

theorem linkA_no_hash (M cap : Str) (hcap : isSha cap) (hM : linkClean M) :
    '#' ∉ (cap.take 6 ++ (litURL ++ M)) := by
  intro hmem
  rcases List.mem_append.mp hmem with h | h
  · exact ((isSha_clean cap hcap) '#' (List.mem_of_mem_take h)).1 rfl
  · rcases List.mem_append.mp h with h | h
    · exact absurd h (by decide)
    · exact (hM '#' h).1 rfl

theorem linkTail_no_bracket (M cap : Str) (hcap : isSha cap) (hM : linkClean M) :
    '[' ∉ (cap.take 6 ++ (litURL ++ (M ++ '#' :: (cap ++ [')'])))) := by
  intro hmem
  rcases List.mem_append.mp hmem with h | h
  · exact ((isSha_clean cap hcap) '[' (List.mem_of_mem_take h)).2.1 rfl
  · rcases List.mem_append.mp h with h | h
    · exact absurd h (by decide)
    · rcases List.mem_append.mp h with h | h
      · exact (hM '[' h).2.1 rfl
      · rcases List.mem_cons.mp h with h | h
        · exact absurd h (by decide)
        · rcases List.mem_append.mp h with h | h
          · exact ((isSha_clean cap hcap) '[' h).2.1 rfl
          · exact absurd (List.mem_singleton.mp h) (by decide)

theorem linkTail_decomp (M cap : Str) :
    cap.take 6 ++ (litURL ++ (M ++ '#' :: (cap ++ [')']))) =
      (cap.take 6 ++ (litURL ++ M)) ++ '#' :: (cap ++ [')']) := by
  simp [List.append_assoc]

theorem linkTail_append (M cap tail : Str) :
    (cap.take 6 ++ (litURL ++ (M ++ '#' :: (cap ++ [')'])))) ++ tail =
      (cap.take 6 ++ (litURL ++ M)) ++ '#' :: (cap ++ ')' :: tail) := by
  simp [List.append_assoc, List.cons_append, List.singleton_append]

theorem linkStr_decomp (M cap : Str) :
    linkStr M cap = '[' :: ((cap.take 6 ++ (litURL ++ M)) ++ '#' :: (cap ++ [')'])) := by
  rw [linkStr, linkTail_decomp]

theorem isSha_no_hash (cap : Str) (hcap : isSha cap) : '#' ∉ cap :=
  fun hm => ((isSha_clean cap hcap) '#' hm).1 rfl

theorem linkStr_infix_eq (M1 cap1 M2 cap2 mid tail : Str)
    (h1 : isSha cap1) (h2 : isSha cap2) (hM1 : linkClean M1) (hM2 : linkClean M2)
    (hmid : '[' ∉ mid) (htailb : '[' ∉ tail)
    (hinf : linkStr M1 cap1 <:+: (mid ++ (linkStr M2 cap2 ++ tail))) :
    linkStr M1 cap1 = linkStr M2 cap2 ∧ cap1 = cap2 := by
  have hshape : mid ++ (linkStr M2 cap2 ++ tail) =
      mid ++ '[' :: ((cap2.take 6 ++ (litURL ++ (M2 ++ '#' :: (cap2 ++ [')'])))) ++
        tail) := by
    rw [linkStr]
    rw [List.cons_append]
  have hv : '[' ∉ ((cap2.take 6 ++ (litURL ++ (M2 ++ '#' :: (cap2 ++ [')'])))) ++
      tail) := by
    intro hm
    rcases List.mem_append.mp hm with h | h
    · exact linkTail_no_bracket M2 cap2 h2 hM2 h
    · exact htailb h
  rw [hshape, linkStr] at hinf
  have hpre := infix_unique_bracket _ mid _ hmid hv hinf
  rw [linkTail_decomp, linkTail_append] at hpre
  have halign := prefix_hash_align _ _ _ _
    (linkA_no_hash M1 cap1 h1 hM1) (linkA_no_hash M2 cap2 h2 hM2) hpre
  have hcapeq := cap_prefix_eq cap1 cap2 tail h1 h2 halign.2
  refine ⟨?_, hcapeq⟩
  rw [linkStr_decomp, linkStr_decomp, halign.1, hcapeq]

theorem preprocess_link_step (pre M cap rest : Str)
    (hpre : ∀ c ∈ pre, c ≠ '[') (hcap : isSha cap) (hM : linkClean M) :
    preprocessCommitMessage (pre ++ (linkStr M cap ++ rest)) =
      preprocessCommitMessage (pre ++ (cap ++ replaceAll (linkStr M cap) cap rest)) := by
  have hfm := findMatch_link pre M cap rest hpre hcap hM
  rw [preprocess_step _ _ _ hfm]
  have h1 : replaceAll (linkStr M cap) cap (pre ++ (linkStr M cap ++ rest)) =
      pre ++ replaceAll (linkStr M cap) cap (linkStr M cap ++ rest) :=
    replaceAll_left (cap.take 6 ++ (litURL ++ (M ++ '#' :: (cap ++ [')'])))) cap pre
      (linkStr M cap ++ rest) hpre
  have h2 : replaceAll (linkStr M cap) cap (linkStr M cap ++ rest) =
      cap ++ replaceAll (linkStr M cap) cap rest :=
    replaceAll_head (linkStr M cap) cap rest
      (by rw [linkStr_decomp]; exact List.cons_ne_nil _ _)
  rw [h1, h2]

theorem linkStr_eq_cap (M1 cap1 M2 cap2 : Str) (h1 : isSha cap1) (h2 : isSha cap2)
    (hM1 : linkClean M1) (hM2 : linkClean M2)
    (heq : linkStr M1 cap1 = linkStr M2 cap2) : cap1 = cap2 := by
  rw [linkStr_decomp, linkStr_decomp] at heq
  injection heq with hhead htail
  have hpre : ((cap1.take 6 ++ (litURL ++ M1)) ++ '#' :: (cap1 ++ [')'])) <+:
      ((cap2.take 6 ++ (litURL ++ M2)) ++ '#' :: (cap2 ++ ')' :: [])) := by
    rw [htail]
  have halign := prefix_hash_align _ _ _ _
    (linkA_no_hash M1 cap1 h1 hM1) (linkA_no_hash M2 cap2 h2 hM2) hpre
  exact cap_prefix_eq cap1 cap2 [] h1 h2 halign.2

theorem containsSub_pref (pat r : Str) : containsSub pat (pat ++ r) = true := by
  rw [containsSub_iff]
  exact (List.prefix_append pat r).isInfix

theorem commentBody_decomp (repo : Repo)
    (baseSha headSha filename o s summary : Str) :
    commentBody repo baseSha headSha filename o s summary =
      str "GPT summary of " ++
        (linkStr (repo.ownerLogin ++ (str "/" ++ (repo.name ++ (str "/blob/" ++
            (baseSha ++ (str "/" ++ filename)))))) o ++
          (str " - " ++
            (linkStr (repo.ownerLogin ++ (str "/" ++ (repo.name ++ (str "/blob/" ++
                (headSha ++ (str "/" ++ filename)))))) s ++
              (':' :: ('\n' :: summary))))) := by
  have e1 : str "GPT summary of [" = str "GPT summary of " ++ ['['] := by decide
  have e2 : str ") - [" = [')'] ++ (str " - " ++ ['[']) := by decide
  have e3 : str "):\n" = [')'] ++ (':' :: ('\n' :: [])) := by decide
  have e4 : str "#" = ['#'] := rfl
  rw [commentBody, linkStr, linkStr, e1, e2, e3]
  simp only [litURL, e4, List.append_assoc, List.cons_append, List.singleton_append,
    List.nil_append, List.append_nil]

theorem title_assemble (o s summary : Str) :
    str "GPT summary of " ++ (o ++ (str " - " ++ (s ++ (':' :: ('\n' :: summary))))) =
      str "GPT summary of " ++ o ++ str " - " ++ s ++ str ":" ++ ('\n' :: summary) := by
  have e : str ":" = [':'] := rfl
  simp only [e, List.append_assoc, List.singleton_append]

theorem final_no_bracket (o s summary : Str) (ho : isSha o) (hs : isSha s)
    (hsum : ∀ c ∈ summary, c ≠ '[' ∧ c ≠ '#') :
    ∀ c ∈ (str "GPT summary of " ++
      (o ++ (str " - " ++ (s ++ (':' :: ('\n' :: summary)))))), c ≠ '[' := by
  intro c hc
  rcases List.mem_append.mp hc with h | h
  · exact (show ∀ c ∈ str "GPT summary of ", c ≠ '[' by decide) c h
  · rcases List.mem_append.mp h with h | h
    · exact ((isSha_clean o ho) c h).2.1
    · rcases List.mem_append.mp h with h | h
      · exact (show ∀ c ∈ str " - ", c ≠ '[' by decide) c h
      · rcases List.mem_append.mp h with h | h
        · exact ((isSha_clean s hs) c h).2.1
        · rcases List.mem_cons.mp h with rfl | h
          · decide
          · rcases List.mem_cons.mp h with rfl | h
            · decide
            · exact (hsum c h).1

theorem preprocess_commentBody (repo : Repo)
    (baseSha headSha filename o s summary : Str)
    (ho : isSha o) (hs : isSha s)
    (hc1 : linkClean repo.ownerLogin) (hc2 : linkClean repo.name)
    (hc3 : linkClean baseSha) (hc4 : linkClean headSha) (hc5 : linkClean filename)
    (hsum : ∀ c ∈ summary, c ≠ '[' ∧ c ≠ '#') :
    preprocessCommitMessage (commentBody repo baseSha headSha filename o s summary) =
      str "GPT summary of " ++ o ++ str " - " ++ s ++ str ":" ++
        ('\n' :: summary) := by
  have hslash : linkClean (str "/") := by
    show ∀ c ∈ str "/", c ≠ '#' ∧ c ≠ '[' ∧ c ≠ '\n' ∧ c ≠ '\r' ∧ c ≠ '\u2028' ∧ c ≠ '\u2029'
    decide
  have hblob : linkClean (str "/blob/") := by
    show ∀ c ∈ str "/blob/", c ≠ '#' ∧ c ≠ '[' ∧ c ≠ '\n' ∧ c ≠ '\r' ∧ c ≠ '\u2028' ∧ c ≠ '\u2029'
    decide
  have hM1 : linkClean (repo.ownerLogin ++ (str "/" ++ (repo.name ++
      (str "/blob/" ++ (baseSha ++ (str "/" ++ filename)))))) :=
    linkClean_append _ _ hc1 (linkClean_append _ _ hslash (linkClean_append _ _ hc2
      (linkClean_append _ _ hblob (linkClean_append _ _ hc3
        (linkClean_append _ _ hslash hc5)))))
  have hM2 : linkClean (repo.ownerLogin ++ (str "/" ++ (repo.name ++
      (str "/blob/" ++ (headSha ++ (str "/" ++ filename)))))) :=
    linkClean_append _ _ hc1 (linkClean_append _ _ hslash (linkClean_append _ _ hc2
      (linkClean_append _ _ hblob (linkClean_append _ _ hc4
        (linkClean_append _ _ hslash hc5)))))
  have hpre1 : ∀ c ∈ str "GPT summary of ", c ≠ '[' := by decide
  have hmidb : ∀ c ∈ str " - ", c ≠ '[' := by decide
  have htailb : ∀ c ∈ (':' :: ('\n' :: summary)), c ≠ '[' := by
    intro c hc
    rcases List.mem_cons.mp hc with rfl | hc
    · decide
    · rcases List.mem_cons.mp hc with rfl | hc
      · decide
      · exact (hsum c hc).1
  have htailb' : '[' ∉ (':' :: ('\n' :: summary)) := fun hm => htailb '[' hm rfl
  rw [commentBody_decomp]
  rw [preprocess_link_step (str "GPT summary of ") _ o _ hpre1 ho hM1]
  have hneq1 : linkStr (repo.ownerLogin ++ (str "/" ++ (repo.name ++
      (str "/blob/" ++ (baseSha ++ (str "/" ++ filename)))))) o ≠ [] := by
    rw [linkStr_decomp]
    exact List.cons_ne_nil _ _
  have hnotail1 : ¬(linkStr (repo.ownerLogin ++ (str "/" ++ (repo.name ++
      (str "/blob/" ++ (baseSha ++ (str "/" ++ filename)))))) o <:+:
        (':' :: ('\n' :: summary))) := by
    rw [linkStr_decomp]
    exact not_infix_of_no_bracket _ _ htailb
  by_cases hLL : linkStr (repo.ownerLogin ++ (str "/" ++ (repo.name ++
        (str "/blob/" ++ (baseSha ++ (str "/" ++ filename)))))) o =
      linkStr (repo.ownerLogin ++ (str "/" ++ (repo.name ++
        (str "/blob/" ++ (headSha ++ (str "/" ++ filename)))))) s
  · have hos : o = s := linkStr_eq_cap _ o _ s ho hs hM1 hM2 hLL
    have ha : replaceAll (linkStr (repo.ownerLogin ++ (str "/" ++ (repo.name ++
        (str "/blob/" ++ (baseSha ++ (str "/" ++ filename)))))) o) o
          (str " - " ++ (linkStr (repo.ownerLogin ++ (str "/" ++ (repo.name ++
            (str "/blob/" ++ (baseSha ++ (str "/" ++ filename)))))) o ++
              (':' :: ('\n' :: summary)))) =
        str " - " ++ replaceAll (linkStr (repo.ownerLogin ++ (str "/" ++
          (repo.name ++ (str "/blob/" ++ (baseSha ++ (str "/" ++ filename)))))) o) o
            (linkStr (repo.ownerLogin ++ (str "/" ++ (repo.name ++
              (str "/blob/" ++ (baseSha ++ (str "/" ++ filename)))))) o ++
                (':' :: ('\n' :: summary))) :=
      replaceAll_left (o.take 6 ++ (litURL ++ ((repo.ownerLogin ++ (str "/" ++
        (repo.name ++ (str "/blob/" ++ (baseSha ++ (str "/" ++ filename)))))) ++
          '#' :: (o ++ [')'])))) o (str " - ") _ hmidb
    have hb : replaceAll (linkStr (repo.ownerLogin ++ (str "/" ++ (repo.name ++
        (str "/blob/" ++ (baseSha ++ (str "/" ++ filename)))))) o) o
          (linkStr (repo.ownerLogin ++ (str "/" ++ (repo.name ++
            (str "/blob/" ++ (baseSha ++ (str "/" ++ filename)))))) o ++
              (':' :: ('\n' :: summary))) =
        o ++ replaceAll (linkStr (repo.ownerLogin ++ (str "/" ++ (repo.name ++
          (str "/blob/" ++ (baseSha ++ (str "/" ++ filename)))))) o) o
            (':' :: ('\n' :: summary)) :=
      replaceAll_head _ o _ hneq1
    have hcrep : replaceAll (linkStr (repo.ownerLogin ++ (str "/" ++ (repo.name ++
        (str "/blob/" ++ (baseSha ++ (str "/" ++ filename)))))) o) o
          (':' :: ('\n' :: summary)) = ':' :: ('\n' :: summary) :=
      replaceAll_no_occur _ o _ hnotail1
    rw [← hLL, ha, hb, hcrep]
    rw [hos]
    rw [preprocess_none _ (findMatch_none_of_clean _
      (final_no_bracket s s summary hs hs hsum))]
    exact title_assemble s s summary
  · have hnotinf : ¬(linkStr (repo.ownerLogin ++ (str "/" ++ (repo.name ++
        (str "/blob/" ++ (baseSha ++ (str "/" ++ filename)))))) o <:+:
          (str " - " ++ (linkStr (repo.ownerLogin ++ (str "/" ++ (repo.name ++
            (str "/blob/" ++ (headSha ++ (str "/" ++ filename)))))) s ++
              (':' :: ('\n' :: summary))))) := by
      intro hinf
      exact hLL (linkStr_infix_eq _ o _ s (str " - ") _ ho hs hM1 hM2
        (by decide) htailb' hinf).1
    rw [replaceAll_no_occur _ o _ hnotinf]
    have hgrp : str "GPT summary of " ++ (o ++ (str " - " ++
        (linkStr (repo.ownerLogin ++ (str "/" ++ (repo.name ++
          (str "/blob/" ++ (headSha ++ (str "/" ++ filename)))))) s ++
            (':' :: ('\n' :: summary))))) =
        (str "GPT summary of " ++ (o ++ str " - ")) ++
          (linkStr (repo.ownerLogin ++ (str "/" ++ (repo.name ++
            (str "/blob/" ++ (headSha ++ (str "/" ++ filename)))))) s ++
              (':' :: ('\n' :: summary))) := by
      simp [List.append_assoc]
    rw [hgrp]
    have hpre2 : ∀ c ∈ (str "GPT summary of " ++ (o ++ str " - ")), c ≠ '[' := by
      intro c hc
      rcases List.mem_append.mp hc with h | h
      · exact hpre1 c h
      · rcases List.mem_append.mp h with h | h
        · exact ((isSha_clean o ho) c h).2.1
        · exact hmidb c h
    rw [preprocess_link_step _ _ s _ hpre2 hs hM2]
    have hneq2 : ¬(linkStr (repo.ownerLogin ++ (str "/" ++ (repo.name ++
        (str "/blob/" ++ (headSha ++ (str "/" ++ filename)))))) s <:+:
          (':' :: ('\n' :: summary))) := by
      rw [linkStr_decomp]
      exact not_infix_of_no_bracket _ _ htailb
    rw [replaceAll_no_occur _ s _ hneq2]
    have hgrp2 : (str "GPT summary of " ++ (o ++ str " - ")) ++
        (s ++ (':' :: ('\n' :: summary))) =
        str "GPT summary of " ++ (o ++ (str " - " ++
          (s ++ (':' :: ('\n' :: summary))))) := by
      simp [List.append_assoc]
    rw [hgrp2]
    rw [preprocess_none _ (findMatch_none_of_clean _
      (final_no_bracket o s summary ho hs hsum))]
    exact title_assemble o s summary

/-- Claim C4 as amended: for hygienic inputs (blob identifiers that are
forty lowercase-hex characters or `"None"`, owner/repo/commit/filename
components free of `#`, `[` and the four ECMAScript line terminators
(`'\n'`, `'\r'`, U+2028, U+2029), and a summary free of
`[` and `#`), `preprocessCommitMessage` rewrites both markup links of a
generated comment body to the raw captured identifiers, so the
normalized body is exactly the raw title line followed by the summary
and in particular contains the raw title — hence it is matched for
deletion and reuse identically to a body already containing the raw
pair. -/
theorem claimC4 (repo : Repo) (baseSha headSha filename summary : Str)
    (f : ModifiedFile)
    (ho : isSha f.originSha) (hs : isSha f.sha)
    (hc1 : linkClean repo.ownerLogin) (hc2 : linkClean repo.name)
    (hc3 : linkClean baseSha) (hc4 : linkClean headSha) (hc5 : linkClean filename)
    (hsum : ∀ c ∈ summary, c ≠ '[' ∧ c ≠ '#') :
    preprocessCommitMessage (commentBody repo baseSha headSha filename
        f.originSha f.sha summary) =
      expectedTitle f ++ ('\n' :: summary) ∧
    containsSub (expectedTitle f) (preprocessCommitMessage (commentBody repo
      baseSha headSha filename f.originSha f.sha summary)) = true := by
  have h := preprocess_commentBody repo baseSha headSha filename f.originSha f.sha
    summary ho hs hc1 hc2 hc3 hc4 hc5 hsum
  have hexp : expectedTitle f = str "GPT summary of " ++ f.originSha ++
      str " - " ++ f.sha ++ str ":" := rfl
  constructor
  · rw [hexp]
    exact h
  · rw [h, hexp]
    exact containsSub_pref _ _

/-- The concrete modified file for the C4 witness. -/
def fileC4 : ModifiedFile :=
  { sha := str "1111111111111111111111111111111111111111", originSha := noneStr,
    diff := str "x", position := JsNum.nan, filename := str "a.ts" }

/-- Witness for C4 at concrete hygienic inputs. -/
theorem claimC4_witness :
    preprocessCommitMessage (commentBody ⟨str "o", str "r"⟩ (str "B") (str "H")
        (str "a.ts") fileC4.originSha fileC4.sha (str "ok")) =
      expectedTitle fileC4 ++ ('\n' :: str "ok") ∧
    containsSub (expectedTitle fileC4) (preprocessCommitMessage (commentBody
      ⟨str "o", str "r"⟩ (str "B") (str "H") (str "a.ts") fileC4.originSha
      fileC4.sha (str "ok"))) = true :=
  claimC4 ⟨str "o", str "r"⟩ (str "B") (str "H") (str "a.ts") (str "ok") fileC4
    (Or.inr rfl) (Or.inl ⟨by decide, by decide⟩)
    (by show ∀ c ∈ str "o", c ≠ '#' ∧ c ≠ '[' ∧ c ≠ '\n' ∧ c ≠ '\r' ∧ c ≠ '\u2028' ∧ c ≠ '\u2029'; decide)
    (by show ∀ c ∈ str "r", c ≠ '#' ∧ c ≠ '[' ∧ c ≠ '\n' ∧ c ≠ '\r' ∧ c ≠ '\u2028' ∧ c ≠ '\u2029'; decide)
    (by show ∀ c ∈ str "B", c ≠ '#' ∧ c ≠ '[' ∧ c ≠ '\n' ∧ c ≠ '\r' ∧ c ≠ '\u2028' ∧ c ≠ '\u2029'; decide)
    (by show ∀ c ∈ str "H", c ≠ '#' ∧ c ≠ '[' ∧ c ≠ '\n' ∧ c ≠ '\r' ∧ c ≠ '\u2028' ∧ c ≠ '\u2029'; decide)
    (by show ∀ c ∈ str "a.ts", c ≠ '#' ∧ c ≠ '[' ∧ c ≠ '\n' ∧ c ≠ '\r' ∧ c ≠ '\u2028' ∧ c ≠ '\u2029'; decide)
    (by show ∀ c ∈ str "ok", c ≠ '[' ∧ c ≠ '#'; decide)

set_option maxRecDepth 2000000 in
/-- Counterexample to claim C4 as stated for arbitrary inputs: a filename
containing `#` followed by a forty-hex run and `)` derails the lazy scan,
the capture is the wrong identifier, and the normalized body does not
contain the raw title. -/
theorem claimC4_cex :
    containsSub
        (str "GPT summary of " ++ str "aaaaaaaaaaaaaaaaaaaaaaaaaaaaaaaaaaaaaaaa" ++
          str " - " ++ noneStr ++ str ":")
        (preprocessCommitMessage (commentBody ⟨str "o", str "r"⟩ (str "B")
          (str "H") (str "z#bbbbbbbbbbbbbbbbbbbbbbbbbbbbbbbbbbbbbbbb)")
          (str "aaaaaaaaaaaaaaaaaaaaaaaaaaaaaaaaaaaaaaaa") noneStr
          (str "sum"))) = false := by
  decide
